import Mathlib

/-!
# Verification of the `multialign` multiple-sequence-alignment engine

This file gives a shallow embedding (in Lean 4) of the core data model and
operations of the `multialign` repository and proves the specification claims
about them.

Embedding conventions:
* An alphabet of size `A` is modelled as `Fin A`; a column entry is
  `Option (Fin A)` (or `Option χ` for an abstract character type), with `none`
  standing for the gap.  The gap's dense index is `A`, matching the source
  which uses slot `AlphabetType::SIZE` of the count vector for gaps.
* The per-column count vector `character_counts : Vec<u8>` is a `List ℕ` of
  length `A + 1`; the `u8` increment `counts[i] += 1` wraps modulo `256` in
  release builds, which is modelled by an explicit `% 256`.
* `i16`/`i32` checked arithmetic (`checked_add`, `checked_sub`, `checked_mul`,
  whose failure aborts the program via `.unwrap()` or propagates as an error)
  is modelled with `Option ℤ` and explicit range checks.
* Node identifiers (`VecIdentifier`) are `List ℕ`; the fixed-size
  `ArrayIdentifier<K>` is a length-indexed subtype.  `usize` offsets are `ℕ`
  (offsets stay far below `2 ^ 64` because they are bounded by sequence
  lengths).
* Fallible operations return `Option` or `Except`; a Rust panic (assertion
  failure, `.unwrap()` on `None`, out-of-bounds index) is modelled as `none`.
-/

/-! ## Character counts (`character_counts` vector, shared by both metrics)

Both `PairwiseMatchMetric` and `PairwiseCostMetric` hold a
`character_counts : Vec<u8>` of length `AlphabetType::SIZE + 1` and implement
`reset_character_counts` / `count_character` / `count_gap` with identical code
(`fill(0)`, `counts[character.index()] += 1`, `counts[SIZE] += 1`). -/

/-- `count_character`: increment the count at a character's dense index.
The `u8` cell wraps modulo 256 (release-build semantics of `+= 1`). -/
def countCharacter (counts : List ℕ) (index : ℕ) : List ℕ :=
  counts.set index ((counts.getD index 0 + 1) % 256)

/-- `count_gap`: the last entry (dense index `A = AlphabetType::SIZE`)
represents the gap. -/
def countGap (A : ℕ) (counts : List ℕ) : List ℕ :=
  countCharacter counts A

/-- `reset_character_counts`: `self.character_counts.fill(0)`.  The vector is
created with length `A + 1` and every operation preserves that length, so the
reset state is the all-zero vector of length `A + 1`. -/
def resetCharacterCounts (A : ℕ) : List ℕ :=
  List.replicate (A + 1) 0

/-- Dense index of a column entry: characters map to their index, the gap
(`none`) to `A`. -/
def kindIndex (A : ℕ) : Option (Fin A) → ℕ
  | some c => c.val
  | none => A

/-- Feed one alignment column into the count vector, entry by entry:
`count_character` for a character, `count_gap` for a gap. -/
def applyColumn (A : ℕ) (counts : List ℕ) (col : List (Option (Fin A))) : List ℕ :=
  col.foldl (fun cs e => countCharacter cs (kindIndex A e)) counts

/-! ## Checked arithmetic helpers -/

/-- `i16` range check: the engine instantiates the A* cost type with
`I16Cost`, a 16-bit signed cost with checked arithmetic. -/
def checkedI16 (z : ℤ) : Option ℤ :=
  if -32768 ≤ z ∧ z ≤ 32767 then some z else none

/-- `i32` checked-operation range check. -/
def checkedI32 (z : ℤ) : Option ℤ :=
  if -2147483648 ≤ z ∧ z ≤ 2147483647 then some z else none

/-! ## Pairwise match metric (`PairwiseMatchMetric::compute_cost_increment`)

The source computes
`score_increment = Σ over count cells of (if c ≥ 2 then c·(c−1)/2 else 0)`
accumulated with `Cost::checked_add`, then returns
`max_score.checked_sub(score_increment)` with
`max_score = K·(K−1)/2` (`K = sequence_amount`, an `i32` obtained through
`i8::try_from`, hence `K ≤ 127`).  The `i32` steps
(`checked_mul`/`checked_sub`/`checked_div`) cannot fail for `c ≤ 255`, so only
the cost-level checks are modelled. -/

/-- Per-cell score `if character_count >= 2 { c·(c−1)/2 } else { 0 }`. -/
def matchCharacterScore (c : ℤ) : ℤ :=
  if 2 ≤ c then c * (c - 1) / 2 else 0

/-- `PairwiseMatchMetric::compute_cost_increment`.  `none` models a failed
checked operation (which the source turns into a panic via `.unwrap()`). -/
def matchComputeCostIncrement (counts : List ℕ) (sequenceAmount : ℤ) : Option ℤ :=
  (counts.foldlM (fun (score : ℤ) (c : ℕ) => checkedI16 (score + matchCharacterScore (c : ℤ))) 0).bind
    (fun scoreIncrement =>
      checkedI16 (sequenceAmount * (sequenceAmount - 1) / 2 - scoreIncrement))

/-! ## Counting differing pairs (specification side for the match metric) -/

/-- Number of unordered pairs of positions of a list holding different values
(gaps, i.e. `none` entries, compare equal to each other). -/
def differingPairs {α : Type} [DecidableEq α] : List α → ℕ
  | [] => 0
  | a :: l => l.countP (fun b => decide (b ≠ a)) + differingPairs l

/-! ## Basic lemmas about the count vector -/

theorem countCharacter_length (cs : List ℕ) (i : ℕ) :
    (countCharacter cs i).length = cs.length := by
  simp [countCharacter]

theorem getD_countCharacter_self (cs : List ℕ) (i : ℕ) (h : i < cs.length) :
    (countCharacter cs i).getD i 0 = (cs.getD i 0 + 1) % 256 := by
  simp [countCharacter, List.getD_eq_getElem?_getD, List.getElem?_set_self', h,
    List.getElem?_eq_getElem]

theorem getD_countCharacter_ne (cs : List ℕ) (i j : ℕ) (h : i ≠ j) :
    (countCharacter cs i).getD j 0 = cs.getD j 0 := by
  simp [countCharacter, List.getD_eq_getElem?_getD, List.getElem?_set_ne h]

theorem applyColumn_length (A : ℕ) (col : List (Option (Fin A))) (cs : List ℕ) :
    (applyColumn A cs col).length = cs.length := by
  induction col generalizing cs with
  | nil => rfl
  | cons e rest ih => simp [applyColumn, List.foldl_cons] at ih ⊢; rw [ih, countCharacter_length]

theorem getD_applyColumn (A : ℕ) (col : List (Option (Fin A))) (cs : List ℕ) (k : ℕ)
    (hk : k < cs.length)
    (hb : cs.getD k 0 + col.countP (fun e => decide (kindIndex A e = k)) ≤ 255) :
    (applyColumn A cs col).getD k 0 =
      cs.getD k 0 + col.countP (fun e => decide (kindIndex A e = k)) := by
  induction col generalizing cs with
  | nil => simp [applyColumn]
  | cons e rest ih =>
    rw [applyColumn, List.foldl_cons, ← applyColumn]
    by_cases he : kindIndex A e = k
    · have hcnt : (e :: rest).countP (fun e => decide (kindIndex A e = k)) =
          rest.countP (fun e => decide (kindIndex A e = k)) + 1 := by
        simp [List.countP_cons, he]
      have hlt : cs.getD k 0 + 1 < 256 := by
        rw [hcnt] at hb; omega
      have hset : (countCharacter cs (kindIndex A e)).getD k 0 = cs.getD k 0 + 1 := by
        rw [he, getD_countCharacter_self cs k hk, Nat.mod_eq_of_lt hlt]
      rw [ih (countCharacter cs (kindIndex A e))
        (by rw [countCharacter_length]; exact hk)
        (by rw [hset]; rw [hcnt] at hb; omega), hset, hcnt]
      omega
    · have hcnt : (e :: rest).countP (fun e => decide (kindIndex A e = k)) =
          rest.countP (fun e => decide (kindIndex A e = k)) := by
        simp [List.countP_cons, he]
      have hset : (countCharacter cs (kindIndex A e)).getD k 0 = cs.getD k 0 :=
        getD_countCharacter_ne cs (kindIndex A e) k he
      rw [ih (countCharacter cs (kindIndex A e))
        (by rw [countCharacter_length]; exact hk)
        (by rw [hset]; rw [hcnt] at hb; exact hb), hset, hcnt]

theorem kindIndex_lt (A : ℕ) (e : Option (Fin A)) : kindIndex A e < A + 1 := by
  cases e with
  | none => simp [kindIndex]
  | some c => exact Nat.lt_succ_of_lt c.isLt

theorem kindIndex_inj (A : ℕ) {a b : Option (Fin A)} (h : kindIndex A a = kindIndex A b) :
    a = b := by
  cases a with
  | none =>
    cases b with
    | none => rfl
    | some c => exact absurd h.symm (Nat.ne_of_lt c.isLt)
  | some c =>
    cases b with
    | none => exact absurd h (Nat.ne_of_lt c.isLt)
    | some d => exact congrArg some (Fin.ext h)

theorem countP_kindIndex_eq (A : ℕ) (l : List (Option (Fin A))) (e : Option (Fin A)) :
    l.countP (fun b => decide (kindIndex A b = kindIndex A e)) =
      l.countP (fun b => decide (b = e)) := by
  refine List.countP_congr (fun b _ => ?_)
  by_cases h : b = e
  · simp [h]
  · have hki : ¬kindIndex A b = kindIndex A e := fun hk => h (kindIndex_inj A hk)
    simp [h, hki]

theorem countP_eq_add_countP_ne (α : Type) [DecidableEq α] (l : List α) (e : α) :
    l.countP (fun b => decide (b = e)) + l.countP (fun b => decide (b ≠ e)) = l.length := by
  induction l with
  | nil => rfl
  | cons a l ih =>
    rw [List.countP_cons, List.countP_cons, List.length_cons]
    by_cases h : a = e
    · rw [if_pos (by simp [h]), if_neg (by simp [h])]
      omega
    · rw [if_neg (by simp [h]), if_pos (by simp [h])]
      omega

theorem succ_mul_self_eq (n : ℕ) : (n + 1) * n = n * (n - 1) + 2 * n := by
  cases n with
  | zero => rfl
  | succ m => simp [Nat.succ_sub_one]; ring

/-- The key combinatorial identity behind the pairwise match metric: with
`c_k` the per-kind counts of the column, twice the number of differing pairs
plus `Σ_k c_k·(c_k−1)` equals `n·(n−1)` where `n` is the column length. -/
theorem two_mul_differingPairs_add_sum (A : ℕ) (col : List (Option (Fin A))) :
    2 * differingPairs col +
      ∑ k ∈ Finset.range (A + 1),
        col.countP (fun b => decide (kindIndex A b = k)) *
          (col.countP (fun b => decide (kindIndex A b = k)) - 1) =
      col.length * (col.length - 1) := by
  induction col with
  | nil => simp [differingPairs]
  | cons e l ih =>
    have hk0mem : kindIndex A e ∈ Finset.range (A + 1) :=
      Finset.mem_range.mpr (kindIndex_lt A e)
    have hcnt : ∀ k, (e :: l).countP (fun b => decide (kindIndex A b = k)) =
        l.countP (fun b => decide (kindIndex A b = k)) +
          (if kindIndex A e = k then 1 else 0) := by
      intro k
      rw [List.countP_cons]
      by_cases h : kindIndex A e = k <;> simp [h]
    have hgsplit :
        ∑ k ∈ Finset.range (A + 1),
            (e :: l).countP (fun b => decide (kindIndex A b = k)) *
              ((e :: l).countP (fun b => decide (kindIndex A b = k)) - 1) =
          (e :: l).countP (fun b => decide (kindIndex A b = kindIndex A e)) *
              ((e :: l).countP (fun b => decide (kindIndex A b = kindIndex A e)) - 1) +
            ∑ k ∈ (Finset.range (A + 1)).erase (kindIndex A e),
              (e :: l).countP (fun b => decide (kindIndex A b = k)) *
                ((e :: l).countP (fun b => decide (kindIndex A b = k)) - 1) :=
      (Finset.add_sum_erase _
        (fun k => (e :: l).countP (fun b => decide (kindIndex A b = k)) *
          ((e :: l).countP (fun b => decide (kindIndex A b = k)) - 1)) hk0mem).symm
    have hisplit :
        ∑ k ∈ Finset.range (A + 1),
            l.countP (fun b => decide (kindIndex A b = k)) *
              (l.countP (fun b => decide (kindIndex A b = k)) - 1) =
          l.countP (fun b => decide (kindIndex A b = kindIndex A e)) *
              (l.countP (fun b => decide (kindIndex A b = kindIndex A e)) - 1) +
            ∑ k ∈ (Finset.range (A + 1)).erase (kindIndex A e),
              l.countP (fun b => decide (kindIndex A b = k)) *
                (l.countP (fun b => decide (kindIndex A b = k)) - 1) :=
      (Finset.add_sum_erase _
        (fun k => l.countP (fun b => decide (kindIndex A b = k)) *
          (l.countP (fun b => decide (kindIndex A b = k)) - 1)) hk0mem).symm
    rw [hgsplit]
    rw [hisplit] at ih
    have herase :
        ∑ k ∈ (Finset.range (A + 1)).erase (kindIndex A e),
            (e :: l).countP (fun b => decide (kindIndex A b = k)) *
              ((e :: l).countP (fun b => decide (kindIndex A b = k)) - 1) =
        ∑ k ∈ (Finset.range (A + 1)).erase (kindIndex A e),
            l.countP (fun b => decide (kindIndex A b = k)) *
              (l.countP (fun b => decide (kindIndex A b = k)) - 1) := by
      refine Finset.sum_congr rfl (fun k hk => ?_)
      have hne : kindIndex A e ≠ k := fun h => (Finset.mem_erase.mp hk).1 h.symm
      rw [hcnt k, if_neg hne, Nat.add_zero]
    rw [herase]
    have hck0 : (e :: l).countP (fun b => decide (kindIndex A b = kindIndex A e)) =
        l.countP (fun b => decide (b = e)) + 1 := by
      rw [hcnt, if_pos rfl, countP_kindIndex_eq]
    have hlk0 : l.countP (fun b => decide (kindIndex A b = kindIndex A e)) =
        l.countP (fun b => decide (b = e)) := countP_kindIndex_eq A l e
    have hdp : differingPairs (e :: l) =
        l.countP (fun b => decide (b ≠ e)) + differingPairs l := rfl
    have hsplit := countP_eq_add_countP_ne _ l e
    rw [hdp, hck0]
    rw [hlk0] at ih
    simp only [List.length_cons, Nat.add_sub_cancel]
    rw [succ_mul_self_eq (l.countP (fun b => decide (b = e))),
      succ_mul_self_eq l.length]
    omega

theorem two_dvd_mul_pred (c : ℕ) : 2 ∣ c * (c - 1) := by
  cases c with
  | zero => simp
  | succ d =>
    simpa [Nat.succ_sub_one, Nat.mul_comm] using (Nat.even_mul_succ_self d).two_dvd

theorem intCast_mul_pred_div_two (c : ℕ) :
    (c : ℤ) * ((c : ℤ) - 1) / 2 = ((c * (c - 1) / 2 : ℕ) : ℤ) := by
  cases c with
  | zero => simp
  | succ d =>
    obtain ⟨t, ht⟩ := two_dvd_mul_pred (d + 1)
    rw [Nat.add_sub_cancel] at ht
    have hz : ((d + 1 : ℕ) : ℤ) * (((d + 1 : ℕ) : ℤ) - 1) = 2 * (t : ℤ) := by
      have h2 := congrArg (fun n : ℕ => (n : ℤ)) ht
      push_cast at h2 ⊢
      linarith
    rw [Nat.add_sub_cancel, ht, Nat.mul_div_cancel_left t (by norm_num), hz,
      Int.mul_ediv_cancel_left _ (by norm_num)]

theorem matchCharacterScore_natCast (c : ℕ) :
    matchCharacterScore (c : ℤ) = ((c * (c - 1) / 2 : ℕ) : ℤ) := by
  rw [matchCharacterScore]
  by_cases h : 2 ≤ c
  · rw [if_pos (by exact_mod_cast h), intCast_mul_pred_div_two]
  · interval_cases c <;> simp

theorem matchCharacterScore_nonneg (c : ℕ) : 0 ≤ matchCharacterScore (c : ℤ) := by
  rw [matchCharacterScore_natCast]; exact Int.natCast_nonneg _

theorem foldlM_checkedI16_sum (f : ℕ → ℤ) (hf : ∀ c, 0 ≤ f c) (l : List ℕ) (acc : ℤ)
    (h0 : 0 ≤ acc) (hb : acc + (l.map f).sum ≤ 32767) :
    l.foldlM (fun score c => checkedI16 (score + f c)) acc = some (acc + (l.map f).sum) := by
  induction l generalizing acc with
  | nil => simp [List.foldlM]
  | cons c t ih =>
    have htsum : 0 ≤ (t.map f).sum :=
      List.sum_nonneg (fun x hx => by
        obtain ⟨y, _, hy⟩ := List.mem_map.mp hx
        exact hy ▸ hf y)
    have hstep : checkedI16 (acc + f c) = some (acc + f c) := by
      rw [checkedI16, if_pos]
      constructor
      · have := hf c; omega
      · simp [List.map_cons, List.sum_cons] at hb; omega
    rw [List.foldlM_cons, hstep, Option.bind_eq_bind, Option.some_bind,
      ih (acc + f c) (by have := hf c; omega)
        (by simp [List.map_cons, List.sum_cons] at hb; omega)]
    simp [List.map_cons, List.sum_cons]
    ring_nf

theorem map_sum_eq_range_sum (f : ℕ → ℤ) (cs : List ℕ) :
    (cs.map f).sum = ∑ k ∈ Finset.range cs.length, f (cs.getD k 0) := by
  induction cs with
  | nil => simp
  | cons a t ih =>
    rw [List.map_cons, List.sum_cons, List.length_cons, Finset.sum_range_succ', ih]
    simp only [List.getD_cons_succ, List.getD_cons_zero]
    ring

/-- Master computation for `PairwiseMatchMetric::compute_cost_increment` on a
column of `K` entries: the per-kind same-pair sum plus the differing-pair
count is `K·(K−1)/2`, and the metric returns the differing-pair count. -/
theorem matchCompute_master (A K : ℕ) (col : List (Option (Fin A)))
    (h2 : 2 ≤ K) (h127 : K ≤ 127) (hlen : col.length = K) :
    ((∑ k ∈ Finset.range (A + 1),
        col.countP (fun b => decide (kindIndex A b = k)) *
          (col.countP (fun b => decide (kindIndex A b = k)) - 1) / 2) +
        differingPairs col = K * (K - 1) / 2) ∧
    matchComputeCostIncrement (applyColumn A (resetCharacterCounts A) col) (K : ℤ) =
      some ((differingPairs col : ℤ)) := by
  have hId := two_mul_differingPairs_add_sum A col
  rw [hlen] at hId
  have h2S : 2 * (∑ k ∈ Finset.range (A + 1),
      col.countP (fun b => decide (kindIndex A b = k)) *
        (col.countP (fun b => decide (kindIndex A b = k)) - 1) / 2) =
      ∑ k ∈ Finset.range (A + 1),
        col.countP (fun b => decide (kindIndex A b = k)) *
          (col.countP (fun b => decide (kindIndex A b = k)) - 1) := by
    rw [Finset.mul_sum]
    exact Finset.sum_congr rfl (fun k _ => Nat.mul_div_cancel' (two_dvd_mul_pred _) )
  have hSdp : (∑ k ∈ Finset.range (A + 1),
      col.countP (fun b => decide (kindIndex A b = k)) *
        (col.countP (fun b => decide (kindIndex A b = k)) - 1) / 2) +
      differingPairs col = K * (K - 1) / 2 := by
    have hKK : K * (K - 1) = 2 * ((∑ k ∈ Finset.range (A + 1),
        col.countP (fun b => decide (kindIndex A b = k)) *
          (col.countP (fun b => decide (kindIndex A b = k)) - 1) / 2) +
        differingPairs col) := by omega
    rw [hKK, Nat.mul_div_cancel_left _ (by norm_num)]
  have hKb : K * (K - 1) / 2 ≤ 8001 := by
    have h1 : K * (K - 1) ≤ 127 * 126 := Nat.mul_le_mul h127 (by omega)
    calc K * (K - 1) / 2 ≤ 127 * 126 / 2 := Nat.div_le_div_right h1
    _ = 8001 := by norm_num
  have hcl : (resetCharacterCounts A).length = A + 1 := by simp [resetCharacterCounts]
  have hlen2 : (applyColumn A (resetCharacterCounts A) col).length = A + 1 := by
    rw [applyColumn_length, hcl]
  have hgetD : ∀ k, k < A + 1 →
      (applyColumn A (resetCharacterCounts A) col).getD k 0 =
        col.countP (fun b => decide (kindIndex A b = k)) := by
    intro k hk
    have h0 : (resetCharacterCounts A).getD k 0 = 0 := by
      simp [resetCharacterCounts]
    rw [getD_applyColumn A col _ k (by rw [hcl]; exact hk)
      (by
        rw [h0]
        have hle := List.countP_le_length (p := fun b => decide (kindIndex A b = k)) (l := col)
        omega),
      h0, Nat.zero_add]
  have hmap : ((applyColumn A (resetCharacterCounts A) col).map
      (fun c0 : ℕ => matchCharacterScore (c0 : ℤ))).sum =
      ((∑ k ∈ Finset.range (A + 1),
          col.countP (fun b => decide (kindIndex A b = k)) *
            (col.countP (fun b => decide (kindIndex A b = k)) - 1) / 2 : ℕ) : ℤ) := by
    rw [map_sum_eq_range_sum, hlen2, Nat.cast_sum]
    refine Finset.sum_congr rfl (fun k hk => ?_)
    rw [hgetD k (Finset.mem_range.mp hk), matchCharacterScore_natCast]
  have hfold : (applyColumn A (resetCharacterCounts A) col).foldlM
      (fun (score : ℤ) (c0 : ℕ) => checkedI16 (score + matchCharacterScore (c0 : ℤ))) (0 : ℤ) =
      some ((0 : ℤ) + ((applyColumn A (resetCharacterCounts A) col).map
        (fun c0 : ℕ => matchCharacterScore (c0 : ℤ))).sum) :=
    foldlM_checkedI16_sum _ (fun c0 => matchCharacterScore_nonneg c0) _ 0 le_rfl
      (by
        rw [hmap]
        have hSb : (∑ k ∈ Finset.range (A + 1),
            col.countP (fun b => decide (kindIndex A b = k)) *
              (col.countP (fun b => decide (kindIndex A b = k)) - 1) / 2) ≤ 8001 := by omega
        omega)
  refine ⟨hSdp, ?_⟩
  rw [matchComputeCostIncrement, hfold, Option.some_bind]
  rw [zero_add, hmap, intCast_mul_pred_div_two]
  have hval : ((K * (K - 1) / 2 : ℕ) : ℤ) -
      ((∑ k ∈ Finset.range (A + 1),
          col.countP (fun b => decide (kindIndex A b = k)) *
            (col.countP (fun b => decide (kindIndex A b = k)) - 1) / 2 : ℕ) : ℤ) =
      (differingPairs col : ℤ) := by
    omega
  rw [hval, checkedI16, if_pos]
  constructor
  · have : (0 : ℤ) ≤ (differingPairs col : ℤ) := Int.natCast_nonneg _
    omega
  · have hdpb : differingPairs col ≤ 8001 := by omega
    omega

/-- C2: for the pairwise-match metric with `sequence_amount = K`
(`2 ≤ K ≤ 127`), after a reset followed by exactly `K`
`count_character`/`count_gap` calls (one column `col`, gap being one kind),
`compute_cost_increment` returns `K·(K−1)/2 − Σ_k c_k·(c_k−1)/2`, which is the
number of unordered pairs of differing entries of the column. -/
theorem pairwise_match_cost_increment_eq (A K : ℕ) (col : List (Option (Fin A)))
    (h2 : 2 ≤ K) (h127 : K ≤ 127) (hlen : col.length = K) :
    matchComputeCostIncrement (applyColumn A (resetCharacterCounts A) col) (K : ℤ) =
      some (((K * (K - 1) / 2 : ℕ) : ℤ) -
        ((∑ k ∈ Finset.range (A + 1),
            col.countP (fun b => decide (kindIndex A b = k)) *
              (col.countP (fun b => decide (kindIndex A b = k)) - 1) / 2 : ℕ) : ℤ)) ∧
    ((K * (K - 1) / 2 : ℕ) : ℤ) -
        ((∑ k ∈ Finset.range (A + 1),
            col.countP (fun b => decide (kindIndex A b = k)) *
              (col.countP (fun b => decide (kindIndex A b = k)) - 1) / 2 : ℕ) : ℤ) =
      (differingPairs col : ℤ) := by
  obtain ⟨hSdp, hres⟩ := matchCompute_master A K col h2 h127 hlen
  have hval : ((K * (K - 1) / 2 : ℕ) : ℤ) -
      ((∑ k ∈ Finset.range (A + 1),
          col.countP (fun b => decide (kindIndex A b = k)) *
            (col.countP (fun b => decide (kindIndex A b = k)) - 1) / 2 : ℕ) : ℤ) =
      (differingPairs col : ℤ) := by omega
  exact ⟨by rw [hres, hval], hval⟩

theorem pairwise_match_cost_increment_eq_witness :
    matchComputeCostIncrement (applyColumn 2 (resetCharacterCounts 2)
        [some 0, some 0, none]) ((3 : ℕ) : ℤ) = some 2 ∧
    differingPairs ([some 0, some 0, none] : List (Option (Fin 2))) = 2 := by
  have h := pairwise_match_cost_increment_eq 2 3 [some 0, some 0, none]
    (by norm_num) (by norm_num) rfl
  refine ⟨?_, by decide⟩
  rw [h.1, h.2]
  decide

/-- C8: in the pairwise-match metric, under the precondition that exactly
`K` entries (`2 ≤ K ≤ 127`) were counted since the last reset, the checked
subtraction `max_score − score_increment` succeeds (the result is `some`) and
the returned cost increment is non-negative. -/
theorem pairwise_match_cost_increment_nonneg (A K : ℕ) (col : List (Option (Fin A)))
    (h2 : 2 ≤ K) (h127 : K ≤ 127) (hlen : col.length = K) :
    ∃ v, matchComputeCostIncrement (applyColumn A (resetCharacterCounts A) col) (K : ℤ) =
      some v ∧ 0 ≤ v := by
  obtain ⟨_, hres⟩ := matchCompute_master A K col h2 h127 hlen
  exact ⟨(differingPairs col : ℤ), hres, Int.natCast_nonneg _⟩

theorem pairwise_match_cost_increment_nonneg_witness :
    ∃ v, matchComputeCostIncrement (applyColumn 1 (resetCharacterCounts 1)
      [some 0, none, none, some 0]) ((4 : ℕ) : ℤ) = some v ∧ 0 ≤ v :=
  pairwise_match_cost_increment_nonneg 1 4 [some 0, none, none, some 0]
    (by norm_num) (by norm_num) rfl

/-! ## Pairwise cost metric (`PairwiseCostMetric::compute_cost_increment`)

The metric owns a table of `Option i32` entries laid out row-major over
`(A+1) × (A+1)` kind pairs (gap last).  `compute_cost_increment` clears the
`non_zero_character_counts` scratch list, then iterates the count cells in
dense-index order; every non-zero cell's index is pushed onto the list, and
for each `other_index` already in the list (all `≤` the current index, in
increasing order) it adds `count · other_count · T[index][other_index]` to
the accumulator.  `PairwiseCostTable::cost` converts the characters back to
indices and reads `table[from · (A+1) + to]`, erroring on a missing entry;
the index→character→index round trip is the identity, so the lookup is
modelled directly on indices. -/

/-- `PairwiseCostMetric::compute_cost_increment`.  `none` models any failure:
a missing table entry (an error in the source) or a failed `i32` checked
multiplication (a panic in the source). -/
def costComputeCostIncrement (A : ℕ) (table : List (Option ℤ)) (counts : List ℕ) :
    Option ℤ := do
  let result ← counts.enum.foldlM
    (fun (acc : ℤ × List ℕ) (p : ℕ × ℕ) =>
      if p.2 = 0 then
        pure acc
      else do
        let cost ← (acc.2 ++ [p.1]).foldlM
          (fun (cost : ℤ) (otherIndex : ℕ) => do
            let multiplicity ← checkedI32 ((p.2 : ℤ) * (counts.getD otherIndex 0 : ℤ))
            let baseCost ← table.getD (p.1 * (A + 1) + otherIndex) none
            let term ← checkedI32 (multiplicity * baseCost)
            pure (cost + term)) acc.1
        pure (cost, acc.2 ++ [p.1]))
    ((0 : ℤ), ([] : List ℕ))
  pure result.1

/-- The indices of the non-zero count cells below `m`, in increasing order:
the state of `non_zero_character_counts` after the loop has passed cell `m`. -/
def nonZeroUpTo (counts : List ℕ) (m : ℕ) : List ℕ :=
  (List.range m).filter (fun i => decide (counts.getD i 0 ≠ 0))

/-- The contribution of the ordered kind pair `(k, j)`:
`c_k · c_j · T[k][j]` (`T` read from the row-major table, `0` for a missing
entry — lookups in scope always succeed under the theorems' hypotheses). -/
def costRowTerm (A : ℕ) (table : List (Option ℤ)) (counts : List ℕ) (k j : ℕ) : ℤ :=
  (counts.getD k 0 : ℤ) * (counts.getD j 0 : ℤ) *
    ((table.getD (k * (A + 1) + j) none).getD 0)

theorem costInner_fold (A : ℕ) (table : List (Option ℤ)) (counts : List ℕ)
    (index count : ℕ) (hcount : count ≤ 255) (hidx : index ≤ A)
    (htab : ∀ i, i < (A + 1) * (A + 1) →
      ∃ t, table.getD i none = some t ∧ t.natAbs ≤ 33000)
    (hcnt : ∀ j, counts.getD j 0 ≤ 255)
    (hcountEq : count = counts.getD index 0) :
    ∀ (nz : List ℕ), (∀ j ∈ nz, j ≤ A) → ∀ (cost : ℤ),
      nz.foldlM
        (fun (cost : ℤ) (otherIndex : ℕ) => do
          let multiplicity ← checkedI32 ((count : ℤ) * (counts.getD otherIndex 0 : ℤ))
          let baseCost ← table.getD (index * (A + 1) + otherIndex) none
          let term ← checkedI32 (multiplicity * baseCost)
          pure (cost + term)) cost =
      some (cost + (nz.map (costRowTerm A table counts index)).sum) := by
  intro nz
  induction nz with
  | nil => intro _ cost; simp
  | cons j t ih =>
    intro hmem cost
    have hj : j ≤ A := hmem j (List.mem_cons_self j t)
    have hcj : counts.getD j 0 ≤ 255 := hcnt j
    have hmul : checkedI32 ((count : ℤ) * (counts.getD j 0 : ℤ)) =
        some ((count : ℤ) * (counts.getD j 0 : ℤ)) := by
      rw [checkedI32, if_pos]
      have h1 : (count : ℤ) * (counts.getD j 0 : ℤ) ≤ 65025 := by
        have := mul_le_mul (a := (count : ℤ)) (b := 255) (c := (counts.getD j 0 : ℤ)) (d := 255)
          (by exact_mod_cast hcount) (by exact_mod_cast hcj)
          (by positivity) (by norm_num)
        omega
      have h2 : (0 : ℤ) ≤ (count : ℤ) * (counts.getD j 0 : ℤ) := by positivity
      omega
    have hidxlt : index * (A + 1) + j < (A + 1) * (A + 1) := by
      have h1 : index * (A + 1) ≤ A * (A + 1) := Nat.mul_le_mul_right _ hidx
      have h2 : A * (A + 1) + A < (A + 1) * (A + 1) := by ring_nf; omega
      omega
    obtain ⟨bc, hbc, hbcb⟩ := htab _ hidxlt
    have hterm : checkedI32 (((count : ℤ) * (counts.getD j 0 : ℤ)) * bc) =
        some (((count : ℤ) * (counts.getD j 0 : ℤ)) * bc) := by
      rw [checkedI32, if_pos]
      have habs : (((count : ℤ) * (counts.getD j 0 : ℤ)) * bc).natAbs ≤ 2145825000 := by
        rw [Int.natAbs_mul, Int.natAbs_mul]
        have hca : (count : ℤ).natAbs ≤ 255 := by omega
        have hcb : ((counts.getD j 0 : ℕ) : ℤ).natAbs ≤ 255 := by
          have := hcj; omega
        calc (count : ℤ).natAbs * ((counts.getD j 0 : ℕ) : ℤ).natAbs * bc.natAbs
            ≤ 255 * 255 * 33000 := by
              exact Nat.mul_le_mul (Nat.mul_le_mul hca hcb) hbcb
          _ = 2145825000 := by norm_num
      omega
    rw [List.foldlM_cons]
    simp only [Option.bind_eq_bind, Option.some_bind, Option.pure_def] at ih
    simp only [hmul, hbc, hterm, Option.bind_eq_bind, Option.some_bind, Option.pure_def]
    rw [ih (fun x hx => hmem x (List.mem_cons_of_mem j hx))]
    have hrt : costRowTerm A table counts index j =
        ((count : ℤ) * (counts.getD j 0 : ℤ)) * bc := by
      rw [costRowTerm, hcountEq, hbc]
      simp [mul_assoc]
    rw [List.map_cons, List.sum_cons, hrt]
    ring_nf

theorem nonZeroUpTo_zero (counts : List ℕ) : nonZeroUpTo counts 0 = [] := rfl

theorem nonZeroUpTo_succ (counts : List ℕ) (m : ℕ) :
    nonZeroUpTo counts (m + 1) =
      nonZeroUpTo counts m ++ (if counts.getD m 0 = 0 then [] else [m]) := by
  rw [nonZeroUpTo, List.range_succ, List.filter_append, nonZeroUpTo]
  congr 1
  rw [List.getD_eq_getElem?_getD]
  by_cases h : counts[m]?.getD 0 = 0
  · simp [List.filter_cons, List.getD_eq_getElem?_getD, h]
  · simp [List.filter_cons, List.getD_eq_getElem?_getD, h]

theorem mem_nonZeroUpTo (counts : List ℕ) (m j : ℕ) (h : j ∈ nonZeroUpTo counts m) :
    j < m ∧ counts.getD j 0 ≠ 0 := by
  rw [nonZeroUpTo] at h
  have h1 := List.mem_filter.mp h
  exact ⟨List.mem_range.mp h1.1, by simpa using h1.2⟩

theorem intList_range_sum (f : ℕ → ℤ) (n : ℕ) :
    ((List.range n).map f).sum = ∑ k ∈ Finset.range n, f k := by
  induction n with
  | zero => simp
  | succ n ih => rw [List.range_succ, Finset.sum_range_succ, ← ih]; simp

theorem filter_map_sum (p : ℕ → Bool) (g : ℕ → ℤ) (l : List ℕ) :
    ((l.filter p).map g).sum = (l.map (fun x => if p x then g x else 0)).sum := by
  induction l with
  | nil => rfl
  | cons a t ih =>
    by_cases h : p a <;> simp [List.filter_cons, h, ih]


theorem costOuter_fold (A : ℕ) (table : List (Option ℤ)) (counts : List ℕ)
    (htab : ∀ i, i < (A + 1) * (A + 1) →
      ∃ t, table.getD i none = some t ∧ t.natAbs ≤ 33000)
    (hcnt : ∀ j, counts.getD j 0 ≤ 255) :
    ∀ (l : List ℕ) (m : ℕ), m + l.length = A + 1 →
      (∀ j, j < l.length → l.getD j 0 = counts.getD (m + j) 0) →
      ∀ (cost : ℤ),
      (List.enumFrom m l).foldlM
        (fun (acc : ℤ × List ℕ) (p : ℕ × ℕ) =>
          if p.2 = 0 then
            pure acc
          else do
            let cost ← (acc.2 ++ [p.1]).foldlM
              (fun (cost : ℤ) (otherIndex : ℕ) => do
                let multiplicity ← checkedI32 ((p.2 : ℤ) * (counts.getD otherIndex 0 : ℤ))
                let baseCost ← table.getD (p.1 * (A + 1) + otherIndex) none
                let term ← checkedI32 (multiplicity * baseCost)
                pure (cost + term)) acc.1
            pure (cost, acc.2 ++ [p.1])) (cost, nonZeroUpTo counts m) =
      some (cost + ((List.range' m l.length).map
          (fun k => if counts.getD k 0 = 0 then 0
            else ((nonZeroUpTo counts (k + 1)).map (costRowTerm A table counts k)).sum)).sum,
        nonZeroUpTo counts (A + 1)) := by
  intro l
  induction l with
  | nil =>
    intro m hm _ cost
    have hmA : m = A + 1 := by simpa using hm
    subst hmA
    simp [List.enumFrom]
  | cons c t ih =>
    intro m hm hl cost
    have hc : c = counts.getD m 0 := by
      have := hl 0 (by simp)
      simpa using this
    have hm' : m + 1 + t.length = A + 1 := by
      simp at hm; omega
    have hl' : ∀ j, j < t.length → t.getD j 0 = counts.getD (m + 1 + j) 0 := by
      intro j hj
      have := hl (j + 1) (by simp; omega)
      rw [List.getD_cons_succ] at this
      rw [this]
      ring_nf
    rw [show List.enumFrom m (c :: t) = (m, c) :: List.enumFrom (m + 1) t from rfl,
      List.foldlM_cons]
    have hrange : List.range' m (c :: t).length = m :: List.range' (m + 1) t.length := rfl
    simp only []
    simp only [Option.pure_def, Option.bind_eq_bind, Option.some_bind] at ih ⊢
    by_cases hc0 : c = 0
    · have hnz : nonZeroUpTo counts (m + 1) = nonZeroUpTo counts m := by
        rw [nonZeroUpTo_succ, if_pos (by rw [← hc]; exact hc0)]
        simp
      rw [if_pos hc0]
      simp only [Option.some_bind]
      rw [← hnz, ih (m + 1) hm' hl' cost, hrange, List.map_cons, List.sum_cons,
        if_pos (show counts.getD m 0 = 0 by rw [← hc]; exact hc0), zero_add]
    · have hnz : nonZeroUpTo counts (m + 1) = nonZeroUpTo counts m ++ [m] := by
        rw [nonZeroUpTo_succ, if_neg (by rw [← hc]; exact hc0)]
      have hmA : m ≤ A := by simp at hm; omega
      have hinner := costInner_fold A table counts m c (by rw [hc]; exact hcnt m) hmA
        htab hcnt hc (nonZeroUpTo counts m ++ [m])
        (by
          intro x hx
          rcases List.mem_append.mp hx with hx1 | hx1
          · have := mem_nonZeroUpTo counts m x hx1
            omega
          · simp at hx1
            omega)
        cost
      rw [if_neg hc0]
      simp only [Option.pure_def, Option.bind_eq_bind, Option.some_bind] at hinner
      rw [hinner]
      simp only [Option.some_bind]
      rw [show nonZeroUpTo counts m ++ [m] = nonZeroUpTo counts (m + 1) from hnz.symm,
        ih (m + 1) hm' hl' _, hrange, List.map_cons, List.sum_cons,
        if_neg (show ¬counts.getD m 0 = 0 by rw [← hc]; exact hc0), hnz]
      rw [add_assoc]

theorem getD_le_255 (counts : List ℕ) (hcnt : ∀ c ∈ counts, c ≤ 255) (j : ℕ) :
    counts.getD j 0 ≤ 255 := by
  by_cases hj : j < counts.length
  · rw [List.getD_eq_getElem _ _ hj]
    exact hcnt _ (List.getElem_mem hj)
  · rw [List.getD_eq_default _ _ (by omega)]
    omega

/-- C3: for the pairwise-cost metric, `compute_cost_increment` on a count
vector `c` returns the sum over ordered pairs `(k, j)` of non-zero kinds with
`j ≤ k` (kinds in dense-index order, gap last) of `c_k · c_j · T[k][j]`; the
diagonal pair contributes with multiplicity `c_k · c_k` (`c_k` squared), not
`c_k·(c_k−1)/2`.  The hypotheses state that the counts are `u8` values and
that the table is fully populated with entries small enough that the `i32`
checked multiplications cannot fail. -/
theorem pairwise_cost_increment_eq (A : ℕ) (table : List (Option ℤ)) (counts : List ℕ)
    (hlen : counts.length = A + 1)
    (hcnt : ∀ c ∈ counts, c ≤ 255)
    (htab : ∀ i, i < (A + 1) * (A + 1) →
      ∃ t, table.getD i none = some t ∧ t.natAbs ≤ 33000) :
    costComputeCostIncrement A table counts =
      some (∑ k ∈ Finset.range (A + 1), ∑ j ∈ Finset.range (A + 1),
        if counts.getD k 0 ≠ 0 ∧ counts.getD j 0 ≠ 0 ∧ j ≤ k then
          (counts.getD k 0 : ℤ) * (counts.getD j 0 : ℤ) *
            ((table.getD (k * (A + 1) + j) none).getD 0)
        else 0) := by
  have hcg : ∀ j, counts.getD j 0 ≤ 255 := getD_le_255 counts hcnt
  have houter := costOuter_fold A table counts htab hcg counts 0
    (by omega) (by intro j hj; rw [Nat.zero_add]) 0
  rw [costComputeCostIncrement]
  rw [show counts.enum = List.enumFrom 0 counts from rfl]
  rw [show (nonZeroUpTo counts 0 : List ℕ) = [] from rfl] at houter
  simp only [Option.bind_eq_bind, Option.pure_def] at houter ⊢
  rw [houter]
  simp only [Option.some_bind, zero_add]
  congr 1
  rw [hlen, show List.range' 0 (A + 1) = List.range (A + 1) from
    (List.range_eq_range' (A + 1)).symm, intList_range_sum]
  refine Finset.sum_congr rfl (fun k hk => ?_)
  by_cases hck : counts.getD k 0 = 0
  · rw [if_pos hck]
    exact (Finset.sum_eq_zero (fun j _ => if_neg (fun hcon => hcon.1 hck))).symm
  · rw [if_neg hck, nonZeroUpTo, filter_map_sum, intList_range_sum]
    have hsub : Finset.range (k + 1) ⊆ Finset.range (A + 1) := by
      refine Finset.range_subset.mpr ?_
      have := Finset.mem_range.mp hk
      omega
    refine Eq.trans (Finset.sum_congr rfl (fun j hj => ?_))
      (Finset.sum_subset hsub (fun x hx1 hx2 => ?_))
    · have hjk : j ≤ k := by
        have := Finset.mem_range.mp hj
        omega
      by_cases hcj : counts.getD j 0 = 0
      · rw [if_neg (by simp only [decide_eq_true_eq]; exact fun hcon => hcon hcj),
          if_neg (fun hcon => hcon.2.1 hcj)]
      · rw [if_pos (by simp only [decide_eq_true_eq]; exact hcj), if_pos ⟨hck, hcj, hjk⟩]
        rfl
    · rw [if_neg (fun hcon => hx2 (Finset.mem_range.mpr (Nat.lt_succ_of_le hcon.2.2)))]

theorem pairwise_cost_increment_eq_witness :
    costComputeCostIncrement 1 [some 0, some 1, some 1, some 0] [2, 1] = some 2 := by
  have h := pairwise_cost_increment_eq 1 [some 0, some 1, some 1, some 0] [2, 1]
    rfl
    (by intro c hc; fin_cases hc <;> norm_num)
    (by
      intro i hi
      interval_cases i
      · exact ⟨0, rfl, by norm_num⟩
      · exact ⟨1, rfl, by norm_num⟩
      · exact ⟨1, rfl, by norm_num⟩
      · exact ⟨0, rfl, by norm_num⟩)
  rw [h]
  decide

/-! ## Alignment context: node type and successor generation
(`Context::generate_successors` in `multialign.rs`)

The context is generic over the `NodeIdentifier`; the loop below is modelled
over the vector representation (`List ℕ` offsets — the fixed-size array
representation is proved equivalent further down) and over an abstract metric
whose per-column state is explicit. -/

/-- A search node: accumulated cost, offset-tuple identifier, and the
predecessor's identifier (`none` for the root). -/
structure MNode where
  cost : ℤ
  identifier : List ℕ
  predecessor : Option (List ℕ)
deriving DecidableEq

/-- `NodeIdentifier::offset` (vector flavor): read the `i`-th offset. -/
def idOffset (id : List ℕ) (i : ℕ) : ℕ := id.getD i 0

/-- `NodeIdentifier::increment` (vector flavor): `offsets[i] += 1`. -/
def idIncrement (id : List ℕ) (i : ℕ) : List ℕ := id.set i (idOffset id i + 1)

/-- The operations a `MultialignMetric` exposes to the context, with the
mutable per-column state `σ` explicit.  `computeCostIncrement` is a pure
read: both concrete metrics return a value determined by the counts alone
(the cost metric's `non_zero_character_counts` scratch is cleared on entry to
`compute_cost_increment`, so it carries no information between calls). -/
structure MetricOps (χ : Type) (σ : Type) where
  reset : σ → σ
  countCharacter : σ → χ → σ
  countGap : σ → σ
  computeCostIncrement : σ → ℤ

/-- Stream one column into the metric: `count_character` for characters,
`count_gap` for gaps, in position order. -/
def MetricOps.applyColumn {χ σ : Type} (M : MetricOps χ σ) (st : σ)
    (col : List (Option χ)) : σ :=
  col.foldl (fun s e => match e with
    | some c => M.countCharacter s c
    | none => M.countGap s) st

/-- The body of the `for (index, sequence) in sequences.iter().enumerate()`
loop of `generate_successors`, for one subset bitmask `gaps`
(`gaps & (1 << index) != 0` is `Nat.testBit gaps index`): if the bit is set
and the sequence has remaining characters, count the character and advance
the offset, otherwise count a gap. -/
def generateOneSuccessorGo {χ σ : Type} (M : MetricOps χ σ) (gaps : ℕ) :
    List (List χ) → ℕ → List ℕ → σ → List ℕ × σ
  | [], _, id, s => (id, s)
  | seq :: rest, index, id, s =>
    if h : Nat.testBit gaps index ∧ idOffset id index < seq.length then
      generateOneSuccessorGo M gaps rest (index + 1) (idIncrement id index)
        (M.countCharacter s (seq.get ⟨idOffset id index, h.2⟩))
    else
      generateOneSuccessorGo M gaps rest (index + 1) id (M.countGap s)

/-- One iteration of the `for gaps in 1..(1 << K)` loop: clone the node's
identifier, reset the metric, then stream the column. -/
def generateOneSuccessor {χ σ : Type} (M : MetricOps χ σ) (seqs : List (List χ))
    (st : σ) (id0 : List ℕ) (gaps : ℕ) : List ℕ × σ :=
  generateOneSuccessorGo M gaps seqs 0 id0 (M.reset st)

/-- `Context::generate_successors`: for every bitmask `gaps ∈ [1, 2^K)` in
increasing order, build the successor and emit
`{cost = node.cost + increment, id, predecessor = Some(node.id)}`.  The cost
addition is checked in the source (`checked_add(...).unwrap()` panics on
`i16` overflow); the unbounded model performs the exact addition.  The metric
state threads through the loop and is returned with the successor list. -/
def generateSuccessors {χ σ : Type} (M : MetricOps χ σ) (seqs : List (List χ))
    (node : MNode) (st : σ) : List MNode × σ :=
  (List.range' 1 (2 ^ seqs.length - 1)).foldl
    (fun (acc : List MNode × σ) (gaps : ℕ) =>
      let next := generateOneSuccessor M seqs acc.2 node.identifier gaps
      (acc.1 ++ [{ cost := node.cost + M.computeCostIncrement next.2,
                   identifier := next.1,
                   predecessor := some node.identifier }], next.2))
    ([], st)

/-- Closed form of the column streamed for bitmask `gaps`, starting at
position `index`: entry `i` is `some sᵢ[offset(i)]` when bit `i` is set and
sequence `i` has remaining input, otherwise a gap. -/
def successorColumnGo {χ : Type} (gaps : ℕ) (id : List ℕ) :
    List (List χ) → ℕ → List (Option χ)
  | [], _ => []
  | seq :: rest, index =>
    (if h : Nat.testBit gaps index ∧ idOffset id index < seq.length then
      some (seq.get ⟨idOffset id index, h.2⟩)
    else none) :: successorColumnGo gaps id rest (index + 1)

/-- The column streamed into the metric for bitmask `gaps`. -/
def successorColumn {χ : Type} (seqs : List (List χ)) (id : List ℕ) (gaps : ℕ) :
    List (Option χ) :=
  successorColumnGo gaps id seqs 0

/-- The identifier updates performed while walking the sequences, with the
guards evaluated against the starting identifier `id0` (the walk touches each
index once, so the running identifier agrees with `id0` at all indices not
yet visited). -/
def successorUpdGo {χ : Type} (gaps : ℕ) (id0 : List ℕ) :
    List (List χ) → ℕ → List ℕ → List ℕ
  | [], _, id => id
  | seq :: rest, index, id =>
    successorUpdGo gaps id0 rest (index + 1)
      (if Nat.testBit gaps index ∧ idOffset id0 index < seq.length then
        idIncrement id index
      else id)

/-- Closed form of the successor identifier for bitmask `gaps`: offset `i`
advances by one exactly when bit `i` of `gaps` is set and sequence `i` has
remaining characters. -/
def successorIdentifier {χ : Type} (seqs : List (List χ)) (id : List ℕ)
    (gaps : ℕ) : List ℕ :=
  (List.range seqs.length).map (fun i =>
    if Nat.testBit gaps i ∧ idOffset id i < (seqs.getD i []).length then
      idOffset id i + 1
    else idOffset id i)

theorem idIncrement_length (id : List ℕ) (i : ℕ) :
    (idIncrement id i).length = id.length := by
  simp [idIncrement]

theorem idOffset_idIncrement_self (id : List ℕ) (i : ℕ) (h : i < id.length) :
    idOffset (idIncrement id i) i = idOffset id i + 1 := by
  simp [idIncrement, idOffset, List.getD_eq_getElem?_getD, List.getElem?_set_self', h,
    List.getElem?_eq_getElem]

theorem idOffset_idIncrement_ne (id : List ℕ) (i j : ℕ) (h : i ≠ j) :
    idOffset (idIncrement id i) j = idOffset id j := by
  simp [idIncrement, idOffset, List.getD_eq_getElem?_getD, List.getElem?_set_ne h]

theorem generateOneSuccessorGo_eq {χ σ : Type} (M : MetricOps χ σ) (gaps : ℕ)
    (id0 : List ℕ) :
    ∀ (tail : List (List χ)) (m : ℕ) (id : List ℕ) (s : σ),
      id.length = id0.length →
      (∀ i, m ≤ i → idOffset id i = idOffset id0 i) →
      generateOneSuccessorGo M gaps tail m id s =
        (successorUpdGo gaps id0 tail m id,
          M.applyColumn s (successorColumnGo gaps id0 tail m)) := by
  intro tail
  induction tail with
  | nil =>
    intro m id s _ _
    simp [generateOneSuccessorGo, successorUpdGo, successorColumnGo, MetricOps.applyColumn]
  | cons seq rest ih =>
    intro m id s hlen hagree
    have hm : idOffset id m = idOffset id0 m := hagree m le_rfl
    rw [generateOneSuccessorGo, successorUpdGo, successorColumnGo]
    by_cases hguard : Nat.testBit gaps m ∧ idOffset id0 m < seq.length
    · have hguard1 : Nat.testBit gaps m ∧ idOffset id m < seq.length := by
        rw [hm]; exact hguard
      rw [dif_pos hguard1, dif_pos hguard, if_pos hguard]
      have hchar : (⟨idOffset id m, hguard1.2⟩ : Fin seq.length) =
          ⟨idOffset id0 m, hguard.2⟩ := Fin.ext hm
      rw [hchar]
      rw [ih (m + 1) (idIncrement id m)
        (M.countCharacter s (seq.get ⟨idOffset id0 m, hguard.2⟩))
        (by rw [idIncrement_length]; exact hlen)
        (fun i hi => by
          rw [idOffset_idIncrement_ne id m i (by omega)]
          exact hagree i (by omega))]
      rfl
    · have hguard1 : ¬(Nat.testBit gaps m ∧ idOffset id m < seq.length) := by
        rw [hm]; exact hguard
      rw [dif_neg hguard1, dif_neg hguard, if_neg hguard]
      rw [ih (m + 1) id (M.countGap s) hlen (fun i hi => hagree i (by omega))]
      rfl

theorem successorUpdGo_spec {χ : Type} (gaps : ℕ) (id0 : List ℕ) :
    ∀ (tail : List (List χ)) (m : ℕ) (id : List ℕ),
      m + tail.length ≤ id.length →
      (successorUpdGo gaps id0 tail m id).length = id.length ∧
      ∀ j, idOffset (successorUpdGo gaps id0 tail m id) j =
        if m ≤ j ∧ j < m + tail.length ∧ Nat.testBit gaps j ∧
            idOffset id0 j < (tail.getD (j - m) []).length then
          idOffset id j + 1
        else idOffset id j := by
  intro tail
  induction tail with
  | nil =>
    intro m id _
    refine ⟨rfl, fun j => ?_⟩
    rw [if_neg (by intro hcon; simp at hcon)]
    rfl
  | cons seq rest ih =>
    intro m id hlen
    rw [successorUpdGo]
    by_cases hguard : Nat.testBit gaps m ∧ idOffset id0 m < seq.length
    · rw [if_pos hguard]
      have hlen1 : m + 1 + rest.length ≤ (idIncrement id m).length := by
        rw [idIncrement_length]
        simp at hlen
        omega
      obtain ⟨ihlen, ihoff⟩ := ih (m + 1) (idIncrement id m) hlen1
      refine ⟨by rw [ihlen, idIncrement_length], fun j => ?_⟩
      rw [ihoff j]
      by_cases hjm : j = m
      · subst hjm
        rw [if_neg (by omega), if_pos ?_]
        · exact idOffset_idIncrement_self id j (by simp at hlen; omega)
        · refine ⟨le_rfl, by simp, hguard.1, ?_⟩
          simpa using hguard.2
      · rw [idOffset_idIncrement_ne id m j (Ne.symm hjm)]
        by_cases hcond : m + 1 ≤ j ∧ j < m + 1 + rest.length ∧ Nat.testBit gaps j ∧
            idOffset id0 j < (rest.getD (j - (m + 1)) []).length
        · rw [if_pos hcond, if_pos ?_]
          refine ⟨by omega, by simp; omega, hcond.2.2.1, ?_⟩
          have hidx : (seq :: rest).getD (j - m) [] = rest.getD (j - (m + 1)) [] := by
            have hjm1 : j - m = (j - (m + 1)) + 1 := by omega
            rw [hjm1, List.getD_cons_succ]
          rw [hidx]
          exact hcond.2.2.2
        · rw [if_neg hcond, if_neg ?_]
          intro hcond2
          refine hcond ⟨by omega, by simp at hcond2 ⊢; omega, hcond2.2.2.1, ?_⟩
          have hjm1 : j - m = (j - (m + 1)) + 1 := by omega
          have h4 := hcond2.2.2.2
          rw [hjm1, List.getD_cons_succ] at h4
          exact h4
    · rw [if_neg hguard]
      have hlen1 : m + 1 + rest.length ≤ id.length := by simp at hlen; omega
      obtain ⟨ihlen, ihoff⟩ := ih (m + 1) id hlen1
      refine ⟨ihlen, fun j => ?_⟩
      rw [ihoff j]
      by_cases hjm : j = m
      · subst hjm
        rw [if_neg (by omega), if_neg ?_]
        intro hcond
        refine hguard ⟨hcond.2.2.1, ?_⟩
        have := hcond.2.2.2
        simpa using this
      · by_cases hcond : m + 1 ≤ j ∧ j < m + 1 + rest.length ∧ Nat.testBit gaps j ∧
            idOffset id0 j < (rest.getD (j - (m + 1)) []).length
        · rw [if_pos hcond, if_pos ?_]
          refine ⟨by omega, by simp; omega, hcond.2.2.1, ?_⟩
          have hjm1 : j - m = (j - (m + 1)) + 1 := by omega
          rw [hjm1, List.getD_cons_succ]
          exact hcond.2.2.2
        · rw [if_neg hcond, if_neg ?_]
          intro hcond2
          refine hcond ⟨by omega, by simp at hcond2 ⊢; omega, hcond2.2.2.1, ?_⟩
          have hjm1 : j - m = (j - (m + 1)) + 1 := by omega
          have h4 := hcond2.2.2.2
          rw [hjm1, List.getD_cons_succ] at h4
          exact h4

theorem generateOneSuccessor_eq {χ σ : Type} (M : MetricOps χ σ) (seqs : List (List χ))
    (st : σ) (id0 : List ℕ) (gaps : ℕ) (hlen : id0.length = seqs.length) :
    generateOneSuccessor M seqs st id0 gaps =
      (successorIdentifier seqs id0 gaps,
        M.applyColumn (M.reset st) (successorColumn seqs id0 gaps)) := by
  rw [generateOneSuccessor,
    generateOneSuccessorGo_eq M gaps id0 seqs 0 id0 (M.reset st) rfl (fun _ _ => rfl),
    successorColumn]
  obtain ⟨hl, hoff⟩ := successorUpdGo_spec gaps id0 seqs 0 id0 (by omega)
  congr 1
  apply List.ext_getElem
  · simp only [successorIdentifier, List.length_map, List.length_range]
    rw [hl, hlen]
  · intro i h1 h2
    have hi : i < seqs.length := by
      rw [hl, hlen] at h1
      exact h1
    simp only [successorIdentifier, List.getElem_map, List.getElem_range]
    rw [← List.getD_eq_getElem _ 0 h1]
    rw [show (successorUpdGo gaps id0 seqs 0 id0).getD i 0 =
      idOffset (successorUpdGo gaps id0 seqs 0 id0) i from rfl, hoff i]
    simp only [Nat.zero_add, Nat.sub_zero]
    by_cases hcond : Nat.testBit gaps i ∧ idOffset id0 i < (seqs.getD i []).length
    · rw [if_pos ⟨by omega, hi, hcond.1, hcond.2⟩, if_pos hcond]
    · rw [if_neg (fun hcon => hcond ⟨hcon.2.2.1, hcon.2.2.2⟩), if_neg hcond]

theorem generateSuccessors_eq {χ σ : Type} (M : MetricOps χ σ) (seqs : List (List χ))
    (node : MNode) (st : σ)
    (hreset : ∀ s t : σ, M.reset s = M.reset t)
    (hlen : node.identifier.length = seqs.length) :
    (generateSuccessors M seqs node st).1 =
      (List.range' 1 (2 ^ seqs.length - 1)).map (fun gaps =>
        { cost := node.cost + M.computeCostIncrement
            (M.applyColumn (M.reset st) (successorColumn seqs node.identifier gaps)),
          identifier := successorIdentifier seqs node.identifier gaps,
          predecessor := some node.identifier }) := by
  rw [generateSuccessors]
  have hfold : ∀ (gs : List ℕ) (out : List MNode) (s : σ),
      (gs.foldl
        (fun (acc : List MNode × σ) (gaps : ℕ) =>
          let next := generateOneSuccessor M seqs acc.2 node.identifier gaps
          (acc.1 ++ [{ cost := node.cost + M.computeCostIncrement next.2,
                       identifier := next.1,
                       predecessor := some node.identifier }], next.2)) (out, s)).1 =
      out ++ gs.map (fun gaps =>
        { cost := node.cost + M.computeCostIncrement
            (M.applyColumn (M.reset st) (successorColumn seqs node.identifier gaps)),
          identifier := successorIdentifier seqs node.identifier gaps,
          predecessor := some node.identifier }) := by
    intro gs
    induction gs with
    | nil => intro out s; simp
    | cons g gs ih =>
      intro out s
      rw [List.foldl_cons]
      simp only []
      have hone := generateOneSuccessor_eq M seqs s node.identifier g hlen
      rw [hone, show M.reset s = M.reset st from hreset s st]
      rw [ih]
      simp
  exact hfold _ [] st

/-- C4: `generate_successors` iterates the bitmasks `g = 1, …, 2^K − 1` in
increasing order; for each `g` it emits a successor whose identifier advances
offset `i` by one exactly when bit `i` of `g` is set and sequence `i` has
remaining characters (the character `sᵢ[offset(i)]` is then counted into the
metric, a gap otherwise), the metric is reset before each successor, the
successor's cost is `node.cost` plus the metric's cost increment for that
column, and its predecessor is the node's identifier.  The hypothesis
`hreset` states that `reset` restores a canonical state, which both concrete
metrics satisfy (they fill the count vector with zeros). -/
theorem generate_successors_spec {χ σ : Type} (M : MetricOps χ σ) (seqs : List (List χ))
    (node : MNode) (st : σ)
    (hreset : ∀ s t : σ, M.reset s = M.reset t)
    (hlen : node.identifier.length = seqs.length) :
    (generateSuccessors M seqs node st).1 =
      (List.range' 1 (2 ^ seqs.length - 1)).map (fun gaps =>
        { cost := node.cost + M.computeCostIncrement
            (M.applyColumn (M.reset st) (successorColumn seqs node.identifier gaps)),
          identifier := successorIdentifier seqs node.identifier gaps,
          predecessor := some node.identifier }) :=
  generateSuccessors_eq M seqs node st hreset hlen

/-- A minimal metric instance used to evaluate the successor generation on
concrete inputs. -/
def trivialMetric : MetricOps Unit Unit where
  reset := fun _ => ()
  countCharacter := fun _ _ => ()
  countGap := fun _ => ()
  computeCostIncrement := fun _ => 0

theorem generate_successors_spec_witness :
    (generateSuccessors trivialMetric [[()], [()]] ⟨0, [0, 0], none⟩ ()).1 =
      [⟨0, [1, 0], some [0, 0]⟩, ⟨0, [0, 1], some [0, 0]⟩, ⟨0, [1, 1], some [0, 0]⟩] := by
  rw [generate_successors_spec trivialMetric [[()], [()]] ⟨0, [0, 0], none⟩ ()
    (fun _ _ => rfl) rfl]
  decide

/-- C1 (counterexample): `generate_successors` does NOT skip subsets whose
"effective" set is empty.  With `s₀ = [()]` and `s₁ = []` (already
exhausted), the subset `S = {1}` (bitmask `g = 2`) only contains the
exhausted sequence, yet a successor is emitted for it (it is the second
element of the output), and its identifier `[0, 0]` equals the node's
identifier — the edge advances no offset. -/
theorem generate_successors_emits_degenerate :
    ((generateSuccessors trivialMetric [[()], []] ⟨0, [0, 0], none⟩ ()).1.getD 1
        ⟨0, [], none⟩) = ⟨0, [0, 0], some [0, 0]⟩ ∧
    (generateSuccessors trivialMetric [[()], []] ⟨0, [0, 0], none⟩ ()).1.length = 3 := by
  decide

/-- C1 (as amended): for every node and every non-empty subset bitmask
`gaps ∈ [1, 2^K)` whose effective set is empty (every set bit points at an
exhausted sequence), `generate_successors` still emits a successor for that
subset — the `(gaps − 1)`-th element of its output — and that successor's
identifier equals the node's identifier (no offset advances: the emitted
edge is a self-loop). -/
theorem generate_successors_degenerate_self_loop {χ σ : Type} (M : MetricOps χ σ)
    (seqs : List (List χ)) (node : MNode) (st : σ) (gaps : ℕ)
    (hreset : ∀ s t : σ, M.reset s = M.reset t)
    (hlen : node.identifier.length = seqs.length)
    (hg1 : 1 ≤ gaps) (hg2 : gaps < 2 ^ seqs.length)
    (hdeg : ∀ i, i < seqs.length → Nat.testBit gaps i →
      (seqs.getD i []).length ≤ idOffset node.identifier i) :
    (generateSuccessors M seqs node st).1.length = 2 ^ seqs.length - 1 ∧
    ((generateSuccessors M seqs node st).1.getD (gaps - 1) ⟨0, [], none⟩).identifier =
      node.identifier := by
  have heq := generateSuccessors_eq M seqs node st hreset hlen
  have hidx : gaps - 1 < 2 ^ seqs.length - 1 := by omega
  constructor
  · rw [heq, List.length_map, List.length_range']
  · rw [heq]
    rw [List.getD_eq_getElem _ _ (by rw [List.length_map, List.length_range']; exact hidx)]
    rw [List.getElem_map]
    rw [List.getElem_range', show 1 + 1 * (gaps - 1) = gaps by omega]
    show successorIdentifier seqs node.identifier gaps = node.identifier
    apply List.ext_getElem
    · simp only [successorIdentifier, List.length_map, List.length_range]
      omega
    · intro i h1 h2
      simp only [successorIdentifier, List.length_map, List.length_range] at h1
      simp only [successorIdentifier, List.getElem_map, List.getElem_range]
      have hni : ¬(Nat.testBit gaps i ∧
          idOffset node.identifier i < (seqs.getD i []).length) := by
        rintro ⟨hb, hlt⟩
        have := hdeg i h1 hb
        omega
      rw [if_neg hni]
      exact List.getD_eq_getElem _ 0 h2

theorem generate_successors_degenerate_self_loop_witness :
    (generateSuccessors trivialMetric [[()], [], [()]] ⟨0, [0, 0, 0], none⟩ ()).1.length = 7 ∧
    ((generateSuccessors trivialMetric [[()], [], [()]]
        ⟨0, [0, 0, 0], none⟩ ()).1.getD 1 ⟨0, [], none⟩).identifier = [0, 0, 0] :=
  generate_successors_degenerate_self_loop trivialMetric [[()], [], [()]]
    ⟨0, [0, 0, 0], none⟩ () 2 (fun _ _ => rfl) rfl (by norm_num) (by norm_num)
    (by decide)

/-! ## Backtracker / CIGAR formatter (`backtrack_cigar`)

`backtrack_cigar` walks the backtrack edges (ordered from the target to the
root), reconstructs each edge's column, builds a run-length list of cigar
elements (processing order: target → root, with match runs merged into the
last element), and finally renders the elements in reverse — i.e. alignment
(root → target) order. -/

inductive CigarElement
  | matchRun (amount : ℕ)
  | mismatch (column : List (Option Char))
deriving DecidableEq

/-- The `column_set.len() == 1` test: the `HashSet` of a column's entries is
a singleton exactly when the column is non-empty and all entries equal the
first (gaps compare equal to gaps). -/
def isMatchColumn (column : List (Option Char)) : Bool :=
  match column with
  | [] => false
  | a :: rest => rest.all (fun b => decide (b = a))

/-- One iteration of the cigar-building loop: a match column increments a
trailing match run (`cigar.last_mut()`), otherwise a new element is pushed. -/
def pushColumn (cigar : List CigarElement) (column : List (Option Char)) :
    List CigarElement :=
  if isMatchColumn column then
    match cigar.getLast? with
    | some (CigarElement.matchRun amount) =>
        cigar.dropLast ++ [CigarElement.matchRun (amount + 1)]
    | _ => cigar ++ [CigarElement.matchRun 1]
  else cigar ++ [CigarElement.mismatch column]

/-- Reconstruct one edge's column: entry `i` is a gap (`none`) when the
predecessor and successor offsets agree, and otherwise the ASCII form of
`sᵢ[predecessor.offset(i)]`.  An out-of-range sequence index (a panic in the
source) makes the whole reconstruction `none`.  The source walks
`sequences.iter().enumerate()`; reading the sequence of index `i` through
`getD` is the same walk. -/
def reconstructColumn {χ : Type} (seqs : List (List χ)) (ascii : χ → Char)
    (pred cur : List ℕ) : Option (List (Option Char)) :=
  (List.range seqs.length).mapM (fun index =>
    if idOffset pred index = idOffset cur index then
      some none
    else
      ((seqs.getD index []).get? (idOffset pred index)).map (fun c => some (ascii c)))

/-- The column of one edge: the predecessor is unwrapped
(`edge.predecessor.as_ref().unwrap()` — `none` models the panic on a
predecessor-less edge). -/
def edgeColumn {χ : Type} (seqs : List (List χ)) (ascii : χ → Char) (edge : MNode) :
    Option (List (Option Char)) :=
  edge.predecessor.bind (fun pred => reconstructColumn seqs ascii pred edge.identifier)

/-- Render one cigar element: a match run as `<count>M`, a mismatch column
as `[c₀c₁…c_{K−1}]` with `-` for a gap. -/
def renderCigarElement : CigarElement → String
  | CigarElement.matchRun amount => toString amount ++ "M"
  | CigarElement.mismatch column =>
      "[" ++ String.mk (column.map (fun c => c.getD '-')) ++ "]"

/-- `backtrack_cigar`: fold the edges (target → root) into the cigar element
list, then render the elements in reverse (root → target) order. -/
def backtrackCigar {χ : Type} (seqs : List (List χ)) (ascii : χ → Char)
    (edges : List MNode) : Option String := do
  let cigar ← edges.foldlM (fun (cigar : List CigarElement) (edge : MNode) => do
    let pred ← edge.predecessor
    let column ← reconstructColumn seqs ascii pred edge.identifier
    pure (pushColumn cigar column)) []
  pure (String.join ((cigar.reverse).map renderCigarElement))

/-- Specification-side grouping of the columns in alignment (root → target)
order: a match column either extends the run that starts the grouped rest or
opens a run of length 1; a mismatch column stands alone. -/
def specGroups : List (List (Option Char)) → List CigarElement
  | [] => []
  | col :: rest =>
    if isMatchColumn col then
      match specGroups rest with
      | CigarElement.matchRun n :: t => CigarElement.matchRun (n + 1) :: t
      | g => CigarElement.matchRun 1 :: g
    else CigarElement.mismatch col :: specGroups rest

/-- Specification-side rendering: group the columns (alignment order), render
every group, concatenate. -/
def specCigarString (cols : List (List (Option Char))) : String :=
  String.join ((specGroups cols).map renderCigarElement)

theorem foldl_pushColumn_reverse (cols : List (List (Option Char))) :
    (cols.foldl pushColumn []).reverse = specGroups cols.reverse := by
  induction cols using List.reverseRecOn with
  | nil => rfl
  | append_singleton cs c ih =>
    rw [List.foldl_append, List.foldl_cons, List.foldl_nil, List.reverse_append,
      show ([c] : List (List (Option Char))).reverse ++ cs.reverse = c :: cs.reverse
        by simp]
    rw [specGroups, pushColumn]
    by_cases hm : isMatchColumn c
    · rw [if_pos hm, if_pos hm]
      cases hlast : (cs.foldl pushColumn []).getLast? with
      | none =>
        have hB : cs.foldl pushColumn [] = [] := List.getLast?_eq_none_iff.mp hlast
        have hspec : specGroups cs.reverse = [] := by
          rw [← ih, hB, List.reverse_nil]
        rw [hB, hspec]
        rfl
      | some el =>
        have hhead : (cs.foldl pushColumn []).reverse.head? = some el := by
          rw [List.head?_reverse]
          exact hlast
        cases el with
        | matchRun n =>
          cases hrev : (cs.foldl pushColumn []).reverse with
          | nil => rw [hrev] at hhead; exact absurd hhead (by simp)
          | cons hd tl =>
            have hhd : hd = CigarElement.matchRun n := by
              rw [hrev] at hhead
              simpa using hhead
            have hspec : specGroups cs.reverse = CigarElement.matchRun n :: tl := by
              rw [← ih, hrev, hhd]
            rw [hspec, List.reverse_append,
              show ([CigarElement.matchRun (n + 1)] : List CigarElement).reverse ++
                (cs.foldl pushColumn []).dropLast.reverse =
                CigarElement.matchRun (n + 1) ::
                  (cs.foldl pushColumn []).dropLast.reverse by simp]
            rw [show (cs.foldl pushColumn []).dropLast.reverse =
              (cs.foldl pushColumn []).reverse.tail from
                ((List.tail_reverse (cs.foldl pushColumn [])).symm)]
            rw [hrev]
            rfl
        | mismatch col2 =>
          have hspec : ∃ tl, specGroups cs.reverse = CigarElement.mismatch col2 :: tl := by
            cases hrev : (cs.foldl pushColumn []).reverse with
            | nil => rw [hrev] at hhead; exact absurd hhead (by simp)
            | cons hd tl =>
              refine ⟨tl, ?_⟩
              have hhd : hd = CigarElement.mismatch col2 := by
                rw [hrev] at hhead
                simpa using hhead
              rw [← ih, hrev, hhd]
          obtain ⟨tl, hspec⟩ := hspec
          rw [hspec, List.reverse_append,
            show ([CigarElement.matchRun 1] : List CigarElement).reverse ++
              (cs.foldl pushColumn []).reverse =
              CigarElement.matchRun 1 :: (cs.foldl pushColumn []).reverse by simp]
          rw [ih, hspec]
    · rw [if_neg hm, if_neg hm, List.reverse_append,
        show ([CigarElement.mismatch c] : List CigarElement).reverse ++
          (cs.foldl pushColumn []).reverse =
          CigarElement.mismatch c :: (cs.foldl pushColumn []).reverse by simp]
      rw [ih]

theorem mapM_option_isSome {α β : Type} (f : α → Option β) :
    ∀ (l : List α), (∀ a ∈ l, (f a).isSome) → (l.mapM f).isSome := by
  intro l
  induction l with
  | nil => intro _; rw [List.mapM_nil]; rfl
  | cons a t ih =>
    intro h
    rw [List.mapM_cons]
    obtain ⟨b, hb⟩ := Option.isSome_iff_exists.mp (h a (List.mem_cons_self a t))
    obtain ⟨bs, hbs⟩ := Option.isSome_iff_exists.mp
      (ih (fun x hx => h x (List.mem_cons_of_mem a hx)))
    rw [hb, hbs]
    simp

theorem backtrackCigar_foldlM {χ : Type} (seqs : List (List χ)) (ascii : χ → Char) :
    ∀ (edges : List MNode) (cols : List (List (Option Char)))
      (cigar0 : List CigarElement),
      edges.mapM (edgeColumn seqs ascii) = some cols →
      edges.foldlM (fun (cigar : List CigarElement) (edge : MNode) => do
        let pred ← edge.predecessor
        let column ← reconstructColumn seqs ascii pred edge.identifier
        pure (pushColumn cigar column)) cigar0 =
      some (cols.foldl pushColumn cigar0) := by
  intro edges
  induction edges with
  | nil =>
    intro cols cigar0 h
    rw [List.mapM_nil] at h
    have : cols = [] := by simpa using h.symm
    subst this
    rfl
  | cons e es ih =>
    intro cols cigar0 h
    rw [List.mapM_cons] at h
    cases hec : edgeColumn seqs ascii e with
    | none => rw [hec] at h; simp at h
    | some c =>
      rw [hec] at h
      cases hes : es.mapM (edgeColumn seqs ascii) with
      | none => rw [hes] at h; simp at h
      | some rest =>
        rw [hes] at h
        have hcols : cols = c :: rest := by
          simp at h
          exact h.symm
        subst hcols
        rw [List.foldlM_cons]
        obtain ⟨p, hp⟩ : ∃ p, e.predecessor = some p := by
          rcases hpred : e.predecessor with _ | p
          · rw [edgeColumn, hpred] at hec; simp at hec
          · exact ⟨p, rfl⟩
        have hrec : reconstructColumn seqs ascii p e.identifier = some c := by
          rw [edgeColumn, hp] at hec
          simpa using hec
        simp only [Option.bind_eq_bind, Option.some_bind, Option.pure_def] at ih
        simp only [hp, hrec, Option.bind_eq_bind, Option.some_bind, Option.pure_def]
        rw [ih rest (pushColumn cigar0 c) hes, List.foldl_cons]

/-- C5: `backtrack_cigar`, given the edges of an alignment ordered from the
target to the root (each edge advancing each offset by at most one, within
bounds), reconstructs each edge's column, classifies a column as a match
exactly when all `K` entries are identical (gaps equal to gaps), collapses
consecutive match columns into `<count>M`, renders each mismatch column as
`[c₀c₁…c_{K−1}]` (ASCII form, `-` for a gap, entries in input sequence
order), and concatenates the elements in root-to-target (alignment) order;
an empty edge list yields the empty string (`specCigarString [] = ""`). -/
theorem backtrack_cigar_spec {χ : Type} (seqs : List (List χ)) (ascii : χ → Char)
    (edges : List MNode)
    (hwf : ∀ e ∈ edges, ∃ p, e.predecessor = some p ∧ ∀ i, i < seqs.length →
      idOffset p i = idOffset e.identifier i ∨
        (idOffset e.identifier i = idOffset p i + 1 ∧
          idOffset p i < (seqs.getD i []).length)) :
    (∃ cols, edges.mapM (edgeColumn seqs ascii) = some cols ∧
      backtrackCigar seqs ascii edges = some (specCigarString cols.reverse)) ∧
    ∀ column : List (Option Char), column ≠ [] →
      (isMatchColumn column = true ↔ ∀ x ∈ column, ∀ y ∈ column, x = y) := by
  constructor
  · have hsome : (edges.mapM (edgeColumn seqs ascii)).isSome := by
      refine mapM_option_isSome _ edges (fun e he => ?_)
      obtain ⟨p, hp, hoff⟩ := hwf e he
      rw [edgeColumn, hp, Option.some_bind]
      refine mapM_option_isSome _ _ (fun i hi => ?_)
      have hi2 : i < seqs.length := List.mem_range.mp hi
      rcases hoff i hi2 with heq | ⟨hsucc, hlt⟩
      · rw [if_pos heq]
        rfl
      · rw [if_neg (by omega)]
        have hg : ((seqs.getD i []).get? (idOffset p i)).isSome := by
          rw [List.get?_eq_getElem?, List.getElem?_eq_getElem hlt]
          rfl
        obtain ⟨ch, hch⟩ := Option.isSome_iff_exists.mp hg
        rw [hch]
        rfl
    obtain ⟨cols, hcols⟩ := Option.isSome_iff_exists.mp hsome
    refine ⟨cols, hcols, ?_⟩
    have hfold := backtrackCigar_foldlM seqs ascii edges cols [] hcols
    rw [backtrackCigar]
    simp only [Option.bind_eq_bind, Option.pure_def] at hfold ⊢
    rw [hfold, Option.some_bind, specCigarString, foldl_pushColumn_reverse]
  · intro column hne
    cases column with
    | nil => exact absurd rfl hne
    | cons a rest =>
      simp only [isMatchColumn, List.all_eq_true, decide_eq_true_eq]
      constructor
      · intro hall x hx y hy
        have hxa : x = a := by
          rcases List.mem_cons.mp hx with h | h
          · exact h
          · exact hall x h
        have hya : y = a := by
          rcases List.mem_cons.mp hy with h | h
          · exact h
          · exact hall y h
        rw [hxa, hya]
      · intro hp b hb
        exact hp b (List.mem_cons_of_mem a hb) a (List.mem_cons_self a rest)

theorem backtrack_cigar_spec_witness :
    backtrackCigar [['A', 'C'], ['A', 'C']] id
      [⟨0, [2, 2], some [1, 1]⟩, ⟨0, [1, 1], some [0, 0]⟩] = some "2M" := by
  obtain ⟨⟨cols, hm, hc⟩, _⟩ := backtrack_cigar_spec [['A', 'C'], ['A', 'C']] id
    [⟨0, [2, 2], some [1, 1]⟩, ⟨0, [1, 1], some [0, 0]⟩]
    (by
      intro e he
      simp only [List.mem_cons, List.not_mem_nil, or_false] at he
      rcases he with he | he <;> subst he <;> exact ⟨_, rfl, by decide⟩)
  have hm2 : ([⟨0, [2, 2], some [1, 1]⟩, ⟨0, [1, 1], some [0, 0]⟩] :
      List MNode).mapM (edgeColumn [['A', 'C'], ['A', 'C']] id) =
      some [[some 'C', some 'C'], [some 'A', some 'A']] := by decide
  rw [hm] at hm2
  have hcols : cols = [[some 'C', some 'C'], [some 'A', some 'A']] :=
    Option.some.inj hm2
  subst hcols
  rw [hc]
  decide

/-! ## Loading the pairwise cost table (`PairwiseCostTable::from_csv_file`)

The CSV parsing stage produces a `cost_map` keyed by (row kind, column kind)
pairs — kinds are characters or the gap, modelled here by their dense
indices `0..A` with `A` the gap.  The final "transform map into table" loop
is the part that decides the symmetry claim: it walks the `(A+1) × (A+1)`
kind pairs in row-major order, pushes each map entry (present or missing)
onto the row-major table, and for every lower-triangle cell `(from, to)`
with `to < from` compares the freshly pushed cost against the mirror cell
`table[to·(A+1)+from]` already in the table (`Option` equality, so
one-present/one-missing also fails), erroring with the offending
row/column pair. -/

/-- One cell of the table-construction loop of `from_csv_file`: push the map
entry for `(fromIdx, toIdx)` onto the row-major table, and for a
lower-triangle cell compare it (as an `Option`, so present-vs-missing also
differs) against the mirror cell already in the table, erroring with the
offending `(row, column)` pair that the source formats into the
"Assymetric entry found for row .., column .." message. -/
def costTableCell (A : ℕ) (costMap : ℕ → ℕ → Option ℤ) (fromIdx toIdx : ℕ)
    (table : List (Option ℤ)) : Except (ℕ × ℕ) (List (Option ℤ)) :=
  if toIdx < fromIdx then
    if (table ++ [costMap fromIdx toIdx]).getD (toIdx * (A + 1) + fromIdx) none =
        costMap fromIdx toIdx then
      Except.ok (table ++ [costMap fromIdx toIdx])
    else
      Except.error (fromIdx, toIdx)
  else
    Except.ok (table ++ [costMap fromIdx toIdx])

/-- The "transform map into table" loop of `from_csv_file`: all
`(A+1) × (A+1)` kind pairs in row-major order. -/
def buildCostTable (A : ℕ) (costMap : ℕ → ℕ → Option ℤ) :
    Except (ℕ × ℕ) (List (Option ℤ)) :=
  (List.range (A + 1)).foldlM (fun table fromIdx =>
    (List.range (A + 1)).foldlM
      (fun table toIdx => costTableCell A costMap fromIdx toIdx table) table) []

/-- The row-major table holding the first `n` cells. -/
def tablePrefix (A : ℕ) (costMap : ℕ → ℕ → Option ℤ) (n : ℕ) : List (Option ℤ) :=
  (List.range n).map (fun idx => costMap (idx / (A + 1)) (idx % (A + 1)))

theorem tablePrefix_length (A : ℕ) (costMap : ℕ → ℕ → Option ℤ) (n : ℕ) :
    (tablePrefix A costMap n).length = n := by
  simp [tablePrefix]

theorem tablePrefix_getD (A : ℕ) (costMap : ℕ → ℕ → Option ℤ) (n i : ℕ) (h : i < n) :
    (tablePrefix A costMap n).getD i none = costMap (i / (A + 1)) (i % (A + 1)) := by
  rw [tablePrefix, List.getD_eq_getElem _ _ (by simpa using h)]
  simp [List.getElem_map, List.getElem_range]

theorem rowMajor_div_mod (A f c : ℕ) (hc : c < A + 1) :
    (f * (A + 1) + c) / (A + 1) = f ∧ (f * (A + 1) + c) % (A + 1) = c := by
  constructor
  · rw [Nat.add_comm, Nat.add_mul_div_right _ _ (by omega : 0 < A + 1),
      Nat.div_eq_of_lt hc, Nat.zero_add]
  · rw [Nat.add_comm, Nat.add_mul_mod_self_right, Nat.mod_eq_of_lt hc]

theorem tablePrefix_append (A : ℕ) (costMap : ℕ → ℕ → Option ℤ) (f c : ℕ)
    (hc : c < A + 1) :
    tablePrefix A costMap (f * (A + 1) + c) ++ [costMap f c] =
      tablePrefix A costMap (f * (A + 1) + c + 1) := by
  rw [tablePrefix, tablePrefix, List.range_succ, List.map_append]
  congr 1
  rw [List.map_singleton, (rowMajor_div_mod A f c hc).1, (rowMajor_div_mod A f c hc).2]

theorem except_ok_bind {ε α β : Type} (v : α) (g : α → Except ε β) :
    (Except.ok v >>= g) = g v := rfl

theorem except_error_bind {ε α β : Type} (e : ε) (g : α → Except ε β) :
    ((Except.error e : Except ε α) >>= g) = Except.error e := rfl

theorem costTableCell_check (A : ℕ) (costMap : ℕ → ℕ → Option ℤ) (f c : ℕ)
    (hf : f ≤ A) (hc : c < f) :
    costTableCell A costMap f c (tablePrefix A costMap (f * (A + 1) + c)) =
      if costMap c f = costMap f c then
        Except.ok (tablePrefix A costMap (f * (A + 1) + c + 1))
      else Except.error (f, c) := by
  rw [costTableCell, if_pos hc]
  have hc1 : c < A + 1 := by omega
  rw [tablePrefix_append A costMap f c hc1]
  have hidx : c * (A + 1) + f < f * (A + 1) + c + 1 := by
    have h3 : c * A ≤ f * A := Nat.mul_le_mul_right A (le_of_lt hc)
    have h4 : c * (A + 1) = c * A + c := by ring
    have h5 : f * (A + 1) = f * A + f := by ring
    omega
  rw [tablePrefix_getD A costMap _ _ hidx,
    (rowMajor_div_mod A c f (by omega)).1, (rowMajor_div_mod A c f (by omega)).2]

theorem costTableCell_push (A : ℕ) (costMap : ℕ → ℕ → Option ℤ) (f c : ℕ)
    (hcf : ¬c < f) (hc : c < A + 1) :
    costTableCell A costMap f c (tablePrefix A costMap (f * (A + 1) + c)) =
      Except.ok (tablePrefix A costMap (f * (A + 1) + c + 1)) := by
  rw [costTableCell, if_neg hcf, tablePrefix_append A costMap f c hc]

theorem buildCostTable_row (A : ℕ) (costMap : ℕ → ℕ → Option ℤ) (f : ℕ) (hf : f ≤ A) :
    ∀ (n c0 : ℕ), c0 + n = A + 1 →
      ((List.range' c0 n).foldlM
          (fun table toIdx => costTableCell A costMap f toIdx table)
          (tablePrefix A costMap (f * (A + 1) + c0)) =
        Except.ok (tablePrefix A costMap (f * (A + 1) + c0 + n)) ∧
        ∀ c, c0 ≤ c → c < f → costMap c f = costMap f c) ∨
      (∃ c, c0 ≤ c ∧ c < f ∧ costMap c f ≠ costMap f c ∧
        (List.range' c0 n).foldlM
          (fun table toIdx => costTableCell A costMap f toIdx table)
          (tablePrefix A costMap (f * (A + 1) + c0)) = Except.error (f, c)) := by
  intro n
  induction n with
  | zero =>
    intro c0 hc0
    left
    refine ⟨by rw [Nat.add_zero]; rfl, fun c hc1 hc2 => ?_⟩
    omega
  | succ n ih =>
    intro c0 hc0
    rw [List.range'_succ, List.foldlM_cons]
    by_cases hcf : c0 < f
    · rw [costTableCell_check A costMap f c0 hf hcf]
      by_cases he : costMap c0 f = costMap f c0
      · rw [if_pos he, except_ok_bind,
          show f * (A + 1) + c0 + 1 = f * (A + 1) + (c0 + 1) from by omega]
        rcases ih (c0 + 1) (by omega) with ⟨hok, hsym⟩ | ⟨c, hc1, hc2, hc3, herr⟩
        · left
          refine ⟨by rw [hok]; congr 1; congr 1; omega, fun c hc1 hc2 => ?_⟩
          rcases Nat.eq_or_lt_of_le hc1 with heq | hlt
          · exact heq ▸ he
          · exact hsym c hlt hc2
        · right
          exact ⟨c, by omega, hc2, hc3, herr⟩
      · rw [if_neg he, except_error_bind]
        right
        exact ⟨c0, le_rfl, hcf, he, rfl⟩
    · rw [costTableCell_push A costMap f c0 hcf (by omega), except_ok_bind,
        show f * (A + 1) + c0 + 1 = f * (A + 1) + (c0 + 1) from by omega]
      rcases ih (c0 + 1) (by omega) with ⟨hok, hsym⟩ | ⟨c, hc1, hc2, hc3, herr⟩
      · left
        refine ⟨by rw [hok]; congr 1; congr 1; omega, fun c hc1 hc2 => ?_⟩
        rcases Nat.eq_or_lt_of_le hc1 with heq | hlt
        · omega
        · exact hsym c hlt hc2
      · right
        exact ⟨c, by omega, hc2, hc3, herr⟩

theorem buildCostTable_rows (A : ℕ) (costMap : ℕ → ℕ → Option ℤ) :
    ∀ (n f0 : ℕ), f0 + n = A + 1 →
      ((List.range' f0 n).foldlM
          (fun table fromIdx => (List.range (A + 1)).foldlM
            (fun table toIdx => costTableCell A costMap fromIdx toIdx table) table)
          (tablePrefix A costMap (f0 * (A + 1))) =
        Except.ok (tablePrefix A costMap ((f0 + n) * (A + 1))) ∧
        ∀ f c, f0 ≤ f → f ≤ A → c < f → costMap c f = costMap f c) ∨
      (∃ f c, f0 ≤ f ∧ f ≤ A ∧ c < f ∧ costMap c f ≠ costMap f c ∧
        (List.range' f0 n).foldlM
          (fun table fromIdx => (List.range (A + 1)).foldlM
            (fun table toIdx => costTableCell A costMap fromIdx toIdx table) table)
          (tablePrefix A costMap (f0 * (A + 1))) = Except.error (f, c)) := by
  intro n
  induction n with
  | zero =>
    intro f0 hf0
    left
    exact ⟨rfl, fun f c h1 h2 _ => by omega⟩
  | succ n ih =>
    intro f0 hf0
    rw [List.range'_succ, List.foldlM_cons]
    have hrow := buildCostTable_row A costMap f0 (by omega) (A + 1) 0 (by omega)
    rw [Nat.add_zero, ← List.range_eq_range'] at hrow
    rcases hrow with ⟨hok, hsym⟩ | ⟨c, _, hc2, hc3, herr⟩
    · rw [hok, except_ok_bind,
        show f0 * (A + 1) + (A + 1) = (f0 + 1) * (A + 1) from by ring]
      rcases ih (f0 + 1) (by omega) with ⟨hok2, hsym2⟩ | ⟨f, c, hf1, hf2, hc2, hc3, herr⟩
      · left
        rw [show f0 + (n + 1) = f0 + 1 + n from by omega]
        refine ⟨hok2, fun f c h1 h2 h3 => ?_⟩
        rcases Nat.eq_or_lt_of_le h1 with heq | hlt
        · subst heq
          exact hsym c (by omega) h3
        · exact hsym2 f c hlt h2 h3
      · right
        exact ⟨f, c, by omega, hf2, hc2, hc3, herr⟩
    · rw [herr, except_error_bind]
      right
      exact ⟨f0, c, le_rfl, by omega, hc2, hc3, rfl⟩

/-- C6: the cost-table construction fails with an error naming the offending
row and column whenever the parsed `cost_map` is asymmetric at some kind
pair (gap included, and a present-vs-missing difference counts), and when it
succeeds the resulting row-major table is exactly the (then provably
symmetric) map.  Kinds are dense indices `0..A`, with `A` the gap. -/
theorem pairwise_cost_table_symmetry (A : ℕ) (costMap : ℕ → ℕ → Option ℤ) :
    (∀ t, buildCostTable A costMap = Except.ok t →
      (∀ i j, i ≤ A → j ≤ A → costMap i j = costMap j i) ∧
      ∀ i j, i ≤ A → j ≤ A → t.getD (i * (A + 1) + j) none = costMap i j) ∧
    (∀ r c, buildCostTable A costMap = Except.error (r, c) →
      c < r ∧ r ≤ A ∧ costMap r c ≠ costMap c r) ∧
    ((∃ i j, i ≤ A ∧ j ≤ A ∧ costMap i j ≠ costMap j i) →
      ∃ r c, buildCostTable A costMap = Except.error (r, c)) := by
  have hmain := buildCostTable_rows A costMap (A + 1) 0 (by omega)
  have hstart : tablePrefix A costMap (0 * (A + 1)) = [] := by
    rw [Nat.zero_mul]
    rfl
  rw [← List.range_eq_range', hstart] at hmain
  rw [show (List.range (A + 1)).foldlM
      (fun table fromIdx => (List.range (A + 1)).foldlM
        (fun table toIdx => costTableCell A costMap fromIdx toIdx table) table)
      ([] : List (Option ℤ)) = buildCostTable A costMap from rfl] at hmain
  refine ⟨?_, ?_, ?_⟩
  · intro t ht
    rcases hmain with ⟨hok, hsym⟩ | ⟨f, c2, _, hf2, hc2, hc3, herr⟩
    · have hteq : t = tablePrefix A costMap ((0 + (A + 1)) * (A + 1)) :=
        Except.ok.inj (ht.symm.trans hok)
      have hsym2 : ∀ i j, i ≤ A → j ≤ A → costMap i j = costMap j i := by
        intro i j hi hj
        rcases lt_trichotomy i j with h | h | h
        · exact hsym j i (by omega) hj h
        · rw [h]
        · exact (hsym i j (by omega) hi h).symm
      refine ⟨hsym2, fun i j hi hj => ?_⟩
      have hidx : i * (A + 1) + j < (0 + (A + 1)) * (A + 1) := by
        have h1 : i * (A + 1) ≤ A * (A + 1) := Nat.mul_le_mul_right (A + 1) hi
        have h2 : (0 + (A + 1)) * (A + 1) = A * (A + 1) + (A + 1) := by ring
        omega
      rw [hteq, tablePrefix_getD A costMap _ _ hidx,
        (rowMajor_div_mod A i j (by omega)).1, (rowMajor_div_mod A i j (by omega)).2]
    · rw [ht] at herr
      exact absurd herr (by simp)
  · intro r c ht
    rcases hmain with ⟨hok, hsym⟩ | ⟨f, c2, _, hf2, hc2, hc3, herr⟩
    · rw [ht] at hok
      exact absurd hok (by simp)
    · have heq := herr.symm.trans ht
      have heq2 : f = r ∧ c2 = c := by
        simpa using heq
      obtain ⟨h1, h2⟩ := heq2
      subst h1
      subst h2
      exact ⟨hc2, hf2, fun he => hc3 he.symm⟩
  · rintro ⟨i, j, hi, hj, hne⟩
    rcases hmain with ⟨hok, hsym⟩ | ⟨f, c2, _, hf2, hc2, hc3, herr⟩
    · exfalso
      rcases lt_trichotomy i j with h | h | h
      · exact hne (hsym j i (by omega) hj h)
      · exact hne (by rw [h])
      · exact hne ((hsym i j (by omega) hi h).symm)
    · exact ⟨f, c2, herr⟩

/-- C6 witness: at `A = 1` the symmetric map builds the full row-major table,
and an asymmetric map is reported with the offending row and column. -/
theorem pairwise_cost_table_symmetry_witness :
    [some (0:ℤ), some 1, some 1, some 0].getD (0 * (1 + 1) + 1) none
        = (fun (i j : ℕ) => if i = j then some (0:ℤ) else some 1) 0 1 ∧
    (0 < 1 ∧ 1 ≤ 1 ∧
      (fun (i j : ℕ) => if i ≤ j then some (0:ℤ) else some 1) 1 0
        ≠ (fun (i j : ℕ) => if i ≤ j then some (0:ℤ) else some 1) 0 1) :=
  ⟨((pairwise_cost_table_symmetry 1 (fun (i j : ℕ) => if i = j then some 0 else some 1)).1
      [some 0, some 1, some 1, some 0] (by rfl)).2 0 1 (by decide) (by decide),
   (pairwise_cost_table_symmetry 1 (fun (i j : ℕ) => if i ≤ j then some (0:ℤ) else some 1)).2.1
      1 0 (by rfl)⟩

/- Dispatch of `multialign_astar` on the number of sequences (main dispatch in
multialign.rs): a `try_into::<u32>` that fails for lengths above `u32::MAX`,
an explicit bound check against `usize::BITS - 1`, then a match with a panic
arm for 0 and 1, sixty-two fixed-size array arms for 2..=63, and a vector
fallback.  The machine word width is a parameter `wordBits`. -/
inductive DispatchChoice where
  | rejected : DispatchChoice
  | panicked : DispatchChoice
  | fixedArray : ℕ → DispatchChoice
  | vector : DispatchChoice
deriving DecidableEq

def u32Max : ℕ := 4294967295

def multialignAstarDispatch (wordBits K : ℕ) : DispatchChoice :=
  if u32Max < K then DispatchChoice.rejected
  else if wordBits - 1 < K then DispatchChoice.rejected
  else if K ≤ 1 then DispatchChoice.panicked
  else if K ≤ 63 then DispatchChoice.fixedArray K
  else DispatchChoice.vector

/- `ArrayIdentifier<K>` models `[usize; K]` as a length-`K` list of naturals;
its `create_root` asserts the runtime amount equals the compile-time `K`. -/
def ArrayIdentifier (K : ℕ) : Type := {l : List ℕ // l.length = K}

def arrayCreateRoot (K n : ℕ) : Option (ArrayIdentifier K) :=
  if _h : n = K then some ⟨List.replicate K 0, List.length_replicate K 0⟩ else none

/-- C7: for `K` at least the word width the dispatch rejects with the
maximum-amount error; for `K = 0` or `1` (when not rejected) it panics; for
`2 ≤ K ≤ 63` it selects the fixed-size array identifier of exactly length `K`,
whose `create_root` succeeds exactly when the runtime amount equals the
compile-time `K` and then yields the all-zero tuple; for `64 ≤ K ≤ wordBits-1`
it selects the variable-size vector identifier. -/
theorem multialign_astar_dispatch_spec (wordBits K : ℕ)
    (hw : 1 ≤ wordBits) (hwmax : wordBits - 1 ≤ u32Max) :
    (wordBits ≤ K → multialignAstarDispatch wordBits K = DispatchChoice.rejected) ∧
    (K ≤ 1 → K < wordBits → multialignAstarDispatch wordBits K = DispatchChoice.panicked) ∧
    (2 ≤ K → K ≤ 63 → K < wordBits →
      multialignAstarDispatch wordBits K = DispatchChoice.fixedArray K ∧
      (∃ root, arrayCreateRoot K K = some root ∧ root.val = List.replicate K 0) ∧
      ∀ n, n ≠ K → arrayCreateRoot K n = none) ∧
    (64 ≤ K → K ≤ wordBits - 1 →
      multialignAstarDispatch wordBits K = DispatchChoice.vector) := by
  have hu : u32Max = 4294967295 := rfl
  rw [hu] at hwmax
  refine ⟨fun hK => ?_, fun h1 h2 => ?_, fun h1 h2 h3 => ?_, fun h1 h2 => ?_⟩
  · unfold multialignAstarDispatch
    rw [hu]
    by_cases hc : 4294967295 < K
    · rw [if_pos hc]
    · rw [if_neg hc, if_pos (show wordBits - 1 < K by omega)]
  · unfold multialignAstarDispatch
    rw [hu, if_neg (show ¬ 4294967295 < K by omega),
      if_neg (show ¬ wordBits - 1 < K by omega), if_pos h1]
  · refine ⟨?_, ⟨⟨List.replicate K 0, List.length_replicate K 0⟩, ?_, rfl⟩, fun n hn => ?_⟩
    · unfold multialignAstarDispatch
      rw [hu, if_neg (show ¬ 4294967295 < K by omega),
        if_neg (show ¬ wordBits - 1 < K by omega),
        if_neg (show ¬ K ≤ 1 by omega), if_pos h2]
    · unfold arrayCreateRoot
      rw [dif_pos rfl]
    · unfold arrayCreateRoot
      rw [dif_neg hn]
  · unfold multialignAstarDispatch
    rw [hu, if_neg (show ¬ 4294967295 < K by omega),
      if_neg (show ¬ wordBits - 1 < K by omega),
      if_neg (show ¬ K ≤ 1 by omega), if_neg (show ¬ K ≤ 63 by omega)]

/-- C7 witness: at word width 64 the dispatch rejects 100 sequences, panics on
one sequence, and picks the length-10 array identifier for ten sequences; at a
hypothetical word width 128 it picks the vector identifier for 64 sequences. -/
theorem multialign_astar_dispatch_spec_witness :
    multialignAstarDispatch 64 100 = DispatchChoice.rejected ∧
    multialignAstarDispatch 64 1 = DispatchChoice.panicked ∧
    multialignAstarDispatch 64 10 = DispatchChoice.fixedArray 10 ∧
    multialignAstarDispatch 128 64 = DispatchChoice.vector :=
  ⟨(multialign_astar_dispatch_spec 64 100 (by decide) (by decide)).1 (by decide),
   (multialign_astar_dispatch_spec 64 1 (by decide) (by decide)).2.1 (by decide) (by decide),
   ((multialign_astar_dispatch_spec 64 10 (by decide) (by decide)).2.2.1
     (by decide) (by decide) (by decide)).1,
   (multialign_astar_dispatch_spec 128 64 (by decide) (by decide)).2.2.2
     (by decide) (by decide)⟩

/- Node identifier representations (multialign.rs and display.rs).  The
variable-size `VecIdentifier` is a plain `List ℕ` of offsets; the fixed-size
`ArrayIdentifier K` (defined above) carries a length-`K` proof.  `offset`
panics on an out-of-bounds index (modelled as `none`); `increment` adds one to
the indexed offset in place. -/
def vecCreateRoot (n : ℕ) : List ℕ := List.replicate n 0

def vecOffset (id : List ℕ) (i : ℕ) : Option ℕ := id.get? i

def vecIncrement (id : List ℕ) (i : ℕ) : Option (List ℕ) :=
  match id.get? i with
  | some v => some (id.set i (v + 1))
  | none => none

def arrayOffset (K : ℕ) (id : ArrayIdentifier K) (i : ℕ) : Option ℕ := id.val.get? i

def arrayIncrement (K : ℕ) (id : ArrayIdentifier K) (i : ℕ) : Option (ArrayIdentifier K) :=
  match id.val.get? i with
  | some v => some ⟨id.val.set i (v + 1), by rw [List.length_set]; exact id.property⟩
  | none => none

/- The derived lexicographic comparison on offset tuples (derive(Ord) compares
the underlying slices element by element, shorter prefix first). -/
def offsetsCmp : List ℕ → List ℕ → Ordering
  | [], [] => Ordering.eq
  | [], _ :: _ => Ordering.lt
  | _ :: _, [] => Ordering.gt
  | x :: xs, y :: ys =>
    match compare x y with
    | Ordering.eq => offsetsCmp xs ys
    | o => o

/- Display for both identifier kinds (display.rs): an opening parenthesis,
the offsets joined by a comma-space separator driven by a `once` flag, and a
closing parenthesis. -/
def vecDisplay (offsets : List ℕ) : String :=
  (offsets.foldl
    (fun (acc : String × Bool) (o : ℕ) =>
      ((if acc.2 then acc.1 else acc.1 ++ ", ") ++ toString o, false))
    ("(", true)).1 ++ ")"

def arrayDisplay (K : ℕ) (id : ArrayIdentifier K) : String :=
  (id.val.foldl
    (fun (acc : String × Bool) (o : ℕ) =>
      ((if acc.2 then acc.1 else acc.1 ++ ", ") ++ toString o, false))
    ("(", true)).1 ++ ")"

/- The display format claimed by the specification, written structurally. -/
def offsetsSpecString : List ℕ → String
  | [] => "()"
  | x :: xs =>
    "(" ++ toString x ++ String.join (xs.map (fun o => ", " ++ toString o)) ++ ")"

def vecRunOps (n : ℕ) (ops : List ℕ) : Option (List ℕ) :=
  ops.foldlM (fun id i => vecIncrement id i) (vecCreateRoot n)

def arrayRunOps (K n : ℕ) (ops : List ℕ) : Option (ArrayIdentifier K) :=
  (arrayCreateRoot K n).bind
    (fun root => ops.foldlM (fun id i => arrayIncrement K id i) root)

theorem string_foldl_append (l : List String) (a : String) :
    l.foldl (fun x y => x ++ y) a = a ++ l.foldl (fun x y => x ++ y) "" := by
  induction l generalizing a with
  | nil => rw [List.foldl_nil, List.foldl_nil, String.append_empty]
  | cons x l ih =>
    rw [List.foldl_cons, List.foldl_cons, ih (a ++ x), ih ("" ++ x),
      show ("" : String) ++ x = x from rfl, String.append_assoc]

theorem string_join_cons (a : String) (l : List String) :
    String.join (a :: l) = a ++ String.join l := by
  show (a :: l).foldl (fun x y => x ++ y) "" = a ++ l.foldl (fun x y => x ++ y) ""
  rw [List.foldl_cons, show ("" : String) ++ a = a from rfl, string_foldl_append]

theorem vecDisplay_foldl_false (xs : List ℕ) (s : String) :
    xs.foldl
      (fun (acc : String × Bool) (o : ℕ) =>
        ((if acc.2 then acc.1 else acc.1 ++ ", ") ++ toString o, false))
      (s, false)
    = (s ++ String.join (xs.map (fun o => ", " ++ toString o)), false) := by
  induction xs generalizing s with
  | nil =>
    rw [List.foldl_nil, List.map_nil, show String.join [] = "" from rfl,
      String.append_empty]
  | cons x xs ih =>
    rw [List.foldl_cons]
    show xs.foldl _ ((s ++ ", ") ++ toString x, false) = _
    rw [ih, List.map_cons, string_join_cons, String.append_assoc, String.append_assoc,
      String.append_assoc (", ") (toString x)]

theorem vecDisplay_eq_spec (offsets : List ℕ) :
    vecDisplay offsets = offsetsSpecString offsets := by
  cases offsets with
  | nil => rfl
  | cons x xs =>
    show (xs.foldl _ ("(" ++ toString x, false)).1 ++ ")" = _
    rw [vecDisplay_foldl_false, offsetsSpecString, String.append_assoc]

theorem offsetsCmp_eq_iff (a b : List ℕ) : offsetsCmp a b = Ordering.eq ↔ a = b := by
  induction a generalizing b with
  | nil =>
    cases b with
    | nil => simp [offsetsCmp]
    | cons y ys => simp [offsetsCmp]
  | cons x xs ih =>
    cases b with
    | nil => simp [offsetsCmp]
    | cons y ys =>
      rcases Nat.lt_trichotomy x y with h | h | h
      · rw [offsetsCmp, Nat.compare_eq_lt.mpr h]
        simp
        omega
      · subst h
        rw [offsetsCmp, Nat.compare_eq_eq.mpr rfl]
        rw [ih]
        simp
      · rw [offsetsCmp, Nat.compare_eq_gt.mpr h]
        simp
        omega

theorem offsetsCmp_lt_iff (a b : List ℕ) :
    offsetsCmp a b = Ordering.lt ↔ List.Lex (fun m n => m < n) a b := by
  induction a generalizing b with
  | nil =>
    cases b with
    | nil =>
      constructor
      · intro h
        exact absurd h (by simp [offsetsCmp])
      · intro h
        exact absurd h (by intro h2; cases h2)
    | cons y ys =>
      constructor
      · intro _
        exact List.Lex.nil
      · intro _
        rfl
  | cons x xs ih =>
    cases b with
    | nil =>
      constructor
      · intro h
        exact absurd h (by simp [offsetsCmp])
      · intro h
        cases h
    | cons y ys =>
      rcases Nat.lt_trichotomy x y with h | h | h
      · rw [offsetsCmp, Nat.compare_eq_lt.mpr h]
        constructor
        · intro _
          exact List.Lex.rel h
        · intro _
          rfl
      · subst h
        rw [offsetsCmp, Nat.compare_eq_eq.mpr rfl, ih]
        constructor
        · intro h2
          exact List.Lex.cons h2
        · intro h2
          cases h2 with
          | cons h3 => exact h3
          | rel h3 => exact absurd h3 (lt_irrefl x)
      · rw [offsetsCmp, Nat.compare_eq_gt.mpr h]
        constructor
        · intro h2
          exact absurd h2 (by simp)
        · intro h2
          cases h2 with
          | cons h3 => exact absurd h (lt_irrefl x)
          | rel h3 => exact absurd h3 (by omega)

theorem runOps_fold_sim (K : ℕ) (ops : List ℕ) (a : ArrayIdentifier K) :
    (ops.foldlM (fun id i => arrayIncrement K id i) a).map Subtype.val
      = ops.foldlM (fun id i => vecIncrement id i) a.val := by
  induction ops generalizing a with
  | nil => rfl
  | cons i ops ih =>
    rw [List.foldlM_cons, List.foldlM_cons]
    cases h : a.val.get? i with
    | none =>
      rw [show arrayIncrement K a i = none by rw [arrayIncrement, h],
        show vecIncrement a.val i = none by rw [vecIncrement, h]]
      rfl
    | some v =>
      rw [show arrayIncrement K a i
            = some ⟨a.val.set i (v + 1), by rw [List.length_set]; exact a.property⟩ by
          rw [arrayIncrement, h],
        show vecIncrement a.val i = some (a.val.set i (v + 1)) by rw [vecIncrement, h]]
      exact ih ⟨a.val.set i (v + 1), by rw [List.length_set]; exact a.property⟩

/-- C9: the fixed-size and variable-size identifier representations agree: the
array root is the all-zero tuple of the vector root (and its `create_root`
rejects a mismatched runtime amount), `offset` and `increment` act identically
on the underlying offset tuple, equality is structural, the derived
lexicographic comparison agrees with elementwise lexicographic order, both
display as the same `(o0, o1, ..., o(K-1))` string, and any same sequence of
increment operations applied from both roots yields equal offset tuples. -/
theorem identifier_representations_equivalent (K : ℕ) :
    (∀ root, arrayCreateRoot K K = some root → root.val = vecCreateRoot K) ∧
    (∀ n, n ≠ K → arrayCreateRoot K n = none) ∧
    (∀ (id : ArrayIdentifier K) (i : ℕ), arrayOffset K id i = vecOffset id.val i) ∧
    (∀ (id : ArrayIdentifier K) (i : ℕ),
      (arrayIncrement K id i).map Subtype.val = vecIncrement id.val i) ∧
    (∀ a b : ArrayIdentifier K, a = b ↔ a.val = b.val) ∧
    (∀ a b : List ℕ, offsetsCmp a b = Ordering.eq ↔ a = b) ∧
    (∀ a b : List ℕ, offsetsCmp a b = Ordering.lt ↔ List.Lex (fun m n => m < n) a b) ∧
    (∀ id : ArrayIdentifier K, arrayDisplay K id = vecDisplay id.val) ∧
    (∀ offsets : List ℕ, vecDisplay offsets = offsetsSpecString offsets) ∧
    (∀ ops : List ℕ, (arrayRunOps K K ops).map Subtype.val = vecRunOps K ops) := by
  refine ⟨?_, ?_, ?_, ?_, ?_, offsetsCmp_eq_iff, offsetsCmp_lt_iff, ?_, vecDisplay_eq_spec, ?_⟩
  · intro root h
    unfold arrayCreateRoot at h
    rw [dif_pos rfl] at h
    rw [← Option.some.inj h]
    rfl
  · intro n hn
    unfold arrayCreateRoot
    rw [dif_neg hn]
  · intro id i
    rfl
  · intro id i
    cases h : id.val.get? i with
    | none =>
      rw [show arrayIncrement K id i = none by rw [arrayIncrement, h],
        show vecIncrement id.val i = none by rw [vecIncrement, h]]
      rfl
    | some v =>
      rw [show arrayIncrement K id i
            = some ⟨id.val.set i (v + 1), by rw [List.length_set]; exact id.property⟩ by
          rw [arrayIncrement, h],
        show vecIncrement id.val i = some (id.val.set i (v + 1)) by rw [vecIncrement, h]]
      rfl
  · intro a b
    exact Subtype.ext_iff
  · intro id
    rfl
  · intro ops
    unfold arrayRunOps vecRunOps arrayCreateRoot
    rw [dif_pos rfl]
    exact runOps_fold_sim K ops ⟨List.replicate K 0, List.length_replicate K 0⟩

/-- C9 witness: from two-sequence roots, incrementing offsets 0, 1, 0 yields
the offset tuple (2, 1) in both representations, displayed as "(2, 1)". -/
theorem identifier_representations_equivalent_witness :
    (arrayRunOps 2 2 [0, 1, 0]).map Subtype.val = some [2, 1] ∧
    vecDisplay [2, 1] = offsetsSpecString [2, 1] ∧
    offsetsSpecString [2, 1] = "(2, 1)" := by
  refine ⟨?_, ?_, by decide⟩
  · rw [(identifier_representations_equivalent 2).2.2.2.2.2.2.2.2.2 [0, 1, 0]]
    decide
  · exact (identifier_representations_equivalent 2).2.2.2.2.2.2.2.2.1 [2, 1]

/- `list_duplicates` (main.rs): assuming the slice sorted, start from its head
as `last_element`, walk the tail, and push an element when it equals the
previous one and is not already the most recently pushed duplicate. -/
def listDuplicates {α : Type} [DecidableEq α] (slice : List α) : List α :=
  match slice with
  | [] => []
  | first :: rest =>
    (rest.foldl
      (fun (acc : List α × α) (element : α) =>
        (if element = acc.2 ∧ acc.1.getLast? ≠ some element
          then acc.1 ++ [element] else acc.1, element))
      (([] : List α), first)).1

/- Recursive restatement of the duplicate-collecting loop, for induction. -/
def dupsFrom {α : Type} [DecidableEq α] : List α → α → List α → List α
  | [], _, dups => dups
  | e :: rest, last, dups =>
    dupsFrom rest e
      (if e = last ∧ dups.getLast? ≠ some e then dups ++ [e] else dups)

theorem foldl_dups_eq {α : Type} [DecidableEq α] (l : List α) (last : α) (dups : List α) :
    (l.foldl
      (fun (acc : List α × α) (element : α) =>
        (if element = acc.2 ∧ acc.1.getLast? ≠ some element
          then acc.1 ++ [element] else acc.1, element))
      (dups, last)).1 = dupsFrom l last dups := by
  induction l generalizing last dups with
  | nil => rfl
  | cons e rest ih =>
    rw [List.foldl_cons]
    simp only [dupsFrom]
    exact ih e _

theorem getLast?_of_max_mem {α : Type} [LinearOrder α] (l : List α) (e : α)
    (hs : l.Sorted (fun m n => m < n)) (hmax : ∀ d ∈ l, d ≤ e) (hmem : e ∈ l) :
    l.getLast? = some e := by
  induction l with
  | nil => cases hmem
  | cons a l2 ih =>
    have hs2 := List.sorted_cons.mp hs
    rcases List.mem_cons.mp hmem with he | he
    · subst he
      cases l2 with
      | nil => rfl
      | cons b l3 =>
        have hab : e < b := hs2.1 b (List.mem_cons_self b l3)
        have hba : b ≤ e := hmax b (List.mem_cons_of_mem e (List.mem_cons_self b l3))
        exact absurd (lt_of_lt_of_le hab hba) (lt_irrefl e)
    · cases l2 with
      | nil => cases he
      | cons b l3 =>
        rw [show ((a :: b :: l3).getLast? = (b :: l3).getLast?) from rfl]
        exact ih hs2.2 (fun d hd => hmax d (List.mem_cons_of_mem a hd)) he

theorem dupsFrom_spec {α : Type} [LinearOrder α] (l : List α) (last : α) (dups : List α)
    (h1 : (last :: l).Sorted (fun m n => m ≤ n))
    (h2 : dups.Sorted (fun m n => m < n))
    (h3 : ∀ d ∈ dups, d ≤ last) :
    (∀ x, x ∈ dupsFrom l last dups ↔ x ∈ dups ∨ 2 ≤ (last :: l).count x) ∧
    (dupsFrom l last dups).Sorted (fun m n => m < n) := by
  induction l generalizing last dups with
  | nil =>
    refine ⟨fun x => ?_, h2⟩
    rw [show dupsFrom ([] : List α) last dups = dups from rfl]
    constructor
    · exact fun hx => Or.inl hx
    · rintro (hx | hx)
      · exact hx
      · have hle2 : ([last] : List α).count x ≤ 1 := by
          have := List.count_le_length x [last]
          simpa using this
        omega
  | cons e rest ih =>
    have hcons := List.sorted_cons.mp h1
    have h1' : (e :: rest).Sorted (fun m n => m ≤ n) := hcons.2
    have hle : last ≤ e := hcons.1 e (List.mem_cons_self e rest)
    rw [show dupsFrom (e :: rest) last dups
        = dupsFrom rest e
            (if e = last ∧ dups.getLast? ≠ some e then dups ++ [e] else dups) from rfl]
    by_cases hc : e = last ∧ dups.getLast? ≠ some e
    · obtain ⟨hel, hgl⟩ := hc
      rw [if_pos ⟨hel, hgl⟩]
      subst hel
      have hdnotin : e ∉ dups := fun hmem => hgl (getLast?_of_max_mem dups e h2 h3 hmem)
      have h2' : (dups ++ [e]).Sorted (fun m n => m < n) := by
        rw [List.Sorted, List.pairwise_append]
        refine ⟨h2, List.pairwise_singleton _ _, fun a ha b hb => ?_⟩
        rw [List.mem_singleton] at hb
        subst hb
        exact lt_of_le_of_ne (h3 a ha) (fun hq => hdnotin (hq ▸ ha))
      have h3' : ∀ d ∈ dups ++ [e], d ≤ e := by
        intro d hd
        rcases List.mem_append.mp hd with hd2 | hd2
        · exact h3 d hd2
        · rw [List.mem_singleton] at hd2
          exact le_of_eq hd2
      obtain ⟨hmem, hsort⟩ := ih e (dups ++ [e]) h1' h2' h3'
      refine ⟨fun x => ?_, hsort⟩
      rw [hmem x, List.mem_append, List.mem_singleton]
      rcases eq_or_ne x e with hx | hx
      · subst hx
        constructor
        · intro _
          right
          have hxx : (x :: x :: rest).count x = (x :: rest).count x + 1 := by
            simp [List.count_cons]
          have hxx2 : (x :: rest).count x = rest.count x + 1 := by
            simp [List.count_cons]
          omega
        · intro _
          exact Or.inl (Or.inr rfl)
      · have hcnt : (e :: e :: rest).count x = (e :: rest).count x := by
          simp [List.count_cons, hx]
        rw [hcnt]
        constructor
        · rintro ((hd | hd) | hd)
          · exact Or.inl hd
          · exact absurd hd hx
          · exact Or.inr hd
        · rintro (hd | hd)
          · exact Or.inl (Or.inl hd)
          · exact Or.inr hd
    · rw [if_neg hc]
      push_neg at hc
      have h3' : ∀ d ∈ dups, d ≤ e := fun d hd => le_trans (h3 d hd) hle
      obtain ⟨hmem, hsort⟩ := ih e dups h1' h2 h3'
      refine ⟨fun x => ?_, hsort⟩
      rw [hmem x]
      rcases eq_or_ne e last with hel | hel
      · subst hel
        have hein : e ∈ dups := List.mem_of_mem_getLast? (hc rfl)
        rcases eq_or_ne x e with hx | hx
        · subst hx
          simp [hein]
        · have hcnt : (e :: e :: rest).count x = (e :: rest).count x := by
            simp [List.count_cons, hx]
          rw [hcnt]
      · have hlt : last < e := lt_of_le_of_ne hle (Ne.symm hel)
        rcases eq_or_ne x last with hx | hx
        · subst hx
          have hnot : x ∉ e :: rest := by
            intro hmem2
            rcases List.mem_cons.mp hmem2 with hq | hq
            · exact hel hq.symm
            · have hq2 := (List.sorted_cons.mp h1').1 x hq
              exact absurd (lt_of_lt_of_le hlt hq2) (lt_irrefl x)
          have hc0 : (e :: rest).count x = 0 := List.count_eq_zero.mpr hnot
          have hc1 : (x :: e :: rest).count x = (e :: rest).count x + 1 := by
            simp [List.count_cons]
          constructor
          · rintro (hd | hd)
            · exact Or.inl hd
            · rw [hc0] at hd
              omega
          · rintro (hd | hd)
            · exact Or.inl hd
            · rw [hc1, hc0] at hd
              omega
        · have hcnt : (last :: e :: rest).count x = (e :: rest).count x := by
            simp [List.count_cons, hx]
          rw [hcnt]

/-- C10: on a slice sorted ascending, `list_duplicates` returns exactly the
distinct elements occurring at least twice, each exactly once, in strictly
ascending order; in particular the result is empty for an empty or
repetition-free slice, and an element occurring three or more times still
appears only once. -/
theorem list_duplicates_spec {α : Type} [LinearOrder α] (slice : List α)
    (hsorted : slice.Sorted (fun m n => m ≤ n)) :
    (∀ x, x ∈ listDuplicates slice ↔ 2 ≤ slice.count x) ∧
    (listDuplicates slice).Sorted (fun m n => m < n) := by
  cases slice with
  | nil =>
    refine ⟨fun x => ?_, List.sorted_nil⟩
    rw [show listDuplicates ([] : List α) = [] from rfl]
    simp
  | cons first rest =>
    rw [show listDuplicates (first :: rest)
        = (rest.foldl
            (fun (acc : List α × α) (element : α) =>
              (if element = acc.2 ∧ acc.1.getLast? ≠ some element
                then acc.1 ++ [element] else acc.1, element))
            (([] : List α), first)).1 from rfl,
      foldl_dups_eq]
    obtain ⟨hmem, hsort⟩ := dupsFrom_spec rest first [] hsorted List.sorted_nil
      (fun d hd => absurd hd (List.not_mem_nil d))
    refine ⟨fun x => ?_, hsort⟩
    rw [hmem x]
    constructor
    · rintro (hd | hd)
      · exact absurd hd (List.not_mem_nil x)
      · exact hd
    · exact fun hd => Or.inr hd

/-- C10 witness: the sorted slice `[1, 1, 2, 3, 3, 3]` yields duplicates
`[1, 3]`, membership agrees with having count at least two, and the result is
strictly sorted. -/
theorem list_duplicates_spec_witness :
    ([1, 1, 2, 3, 3, 3] : List ℕ).Sorted (fun m n => m ≤ n) ∧
    ((3 : ℕ) ∈ listDuplicates ([1, 1, 2, 3, 3, 3] : List ℕ)
      ↔ 2 ≤ ([1, 1, 2, 3, 3, 3] : List ℕ).count 3) ∧
    (listDuplicates ([1, 1, 2, 3, 3, 3] : List ℕ)).Sorted (fun m n => m < n) ∧
    listDuplicates ([1, 1, 2, 3, 3, 3] : List ℕ) = [1, 3] :=
  ⟨by decide,
   (list_duplicates_spec ([1, 1, 2, 3, 3, 3] : List ℕ) (by decide)).1 3,
   (list_duplicates_spec ([1, 1, 2, 3, 3, 3] : List ℕ) (by decide)).2,
   by decide⟩
